import Mathlib

/-!
# A shallow embedding of the clockwork fake clock

This file models the virtual-clock engine of the `clockwork` Go package:
the fake clock state (current virtual time, the ordered waiter queue, the
blocker registry), the expirer store, and the public operations
(`NewTimer`, `AfterFunc`, `NewTicker`, timer/ticker `Reset`, `Stop`,
`Advance`, `newBlocker`).

Modelling conventions:
* `time.Time` and `time.Duration` are both `Int` (nanoseconds); the claims
  under study do not depend on 64-bit overflow.
* Go pointer identity of an expirer is modelled by a numeric id allocated
  from `FC.nextId`; the mutable fields of each expirer (`exp`, the ticker
  period `d`, the single-slot channel, the spawned `afterFunc` goroutines)
  live in the store `FC.store : Nat → ExpData`, so that mutating a field
  is visible through every queue entry holding that id, exactly as for a
  shared Go pointer.
* A timer/ticker channel has capacity one and expiration never blocks:
  `chan : Option Int` with a try-send that drops the value when full.
* `fired` is a ghost log, never read by any operation: one entry per call
  of `expire`, recording the expirer, the `now` argument, and the clock's
  current time at that moment.
* `go f.afterFunc()` is modelled by counting spawned callbacks.
* `Advance` terminates in Go because every requeued ticker moves its
  expiration forward; the model runs the loop on explicit fuel and
  returns `none` when the fuel is exhausted before the loop condition
  fails.  `advanceLoop_isSome` proves the chosen fuel always suffices.
-/

namespace Clockwork

/-- The two expirer variants: a one-shot timer (the `Bool` records whether
an `afterFunc` callback is attached) and a recurring ticker. -/
inductive EKind where
  | timer : Bool → EKind
  | ticker : EKind
deriving DecidableEq, Repr

/-- The mutable fields of one expirer (the fields of `fakeTimer` /
`fakeTicker` reached through the shared pointer). -/
structure ExpData where
  kind : EKind
  /-- `exp`: the expiration instant, meaningful while queued. -/
  exp : Int
  /-- `fakeTicker.d`: the ticker period. Unused for timers. -/
  tickD : Int
  /-- The single-slot channel buffer: `none` = empty. -/
  chan : Option Int
  /-- Ghost: how many `afterFunc` goroutines were spawned. -/
  spawned : Nat
deriving DecidableEq, Repr

instance : Inhabited ExpData := ⟨⟨.timer false, 0, 0, none, 0⟩⟩

/-- Ghost record of one `expire` invocation. -/
structure FiredEv where
  id : Nat
  /-- The `now` argument passed to `expire`. -/
  instant : Int
  /-- `inner.time` at the moment `expire` was invoked. -/
  clockTime : Int
deriving DecidableEq, Repr

/-- `fakeClockInner` plus the id allocator and the ghost firing log.
`blockers` holds the required counts of the registered (unnotified)
blockers, in registration order. -/
structure FC where
  time : Int
  waiters : List Nat
  blockers : List Int
  store : Nat → ExpData
  nextId : Nat
  fired : List FiredEv

/-- A fresh fake clock at time `t` (`NewFakeClockAt`). -/
def mkFC (t : Int) : FC :=
  { time := t, waiters := [], blockers := [], store := fun _ => default,
    nextId := 0, fired := [] }

/-- Point update of the store. -/
def updStore (f : Nat → ExpData) (i : Nat) (x : ExpData) : Nat → ExpData :=
  fun j => if j = i then x else f j

/-- Non-blocking send on a capacity-one channel: keep the old value when
the buffer is full. -/
def trySend (c : Option Int) (t : Int) : Option Int :=
  match c with
  | none => some t
  | some t₀ => some t₀

/-- `expire`: fire expirer `i` at instant `now`.  Returns the updated
state and the desired duration until the next expiration, if any
(`some` of the ticker period for tickers, `none` for timers). -/
def expireModel (s : FC) (i : Nat) (now : Int) : FC × Option Int :=
  let x := s.store i
  let s := { s with fired := s.fired ++ [FiredEv.mk i now s.time] }
  match x.kind with
  | .timer true =>
      ({ s with store := updStore s.store i { x with spawned := x.spawned + 1 } }, none)
  | .timer false =>
      ({ s with store := updStore s.store i { x with chan := trySend x.chan now } }, none)
  | .ticker =>
      ({ s with store := updStore s.store i { x with chan := trySend x.chan now } },
       some x.tickD)

/-- Go's `sort.Search` loop body, on explicit fuel (the loop runs at most
`j - i` times, each iteration at least halving the range). -/
def goSearchF (pred : Nat → Bool) : Nat → Nat → Nat → Nat
  | 0, i, _ => i
  | fuel + 1, i, j =>
    if i < j then
      if pred ((i + j) / 2) then goSearchF pred fuel i ((i + j) / 2)
      else goSearchF pred fuel ((i + j) / 2 + 1) j
    else i

/-- Go's `sort.Search` on the half-open range `[i, j)`: binary search for
the least index satisfying `pred`, assuming `pred` is false then true. -/
def goSearch (pred : Nat → Bool) (i j : Nat) : Nat := goSearchF pred (j - i) i j

/-- The fuel is irrelevant as long as it covers the range. -/
lemma goSearchF_irrel (pred : Nat → Bool) : ∀ f1 f2 i j, j - i ≤ f1 → j - i ≤ f2 →
    goSearchF pred f1 i j = goSearchF pred f2 i j := by
  intro f1
  induction f1 with
  | zero =>
    intro f2 i j h1 h2
    have hij : ¬ i < j := by omega
    cases f2 with
    | zero => rfl
    | succ f2 => simp [goSearchF, hij]
  | succ f1 ih =>
    intro f2 i j h1 h2
    by_cases hij : i < j
    · have hm1 : i ≤ (i + j) / 2 := Nat.le_div_iff_mul_le (by omega) |>.mpr (by omega)
      have hm2 : (i + j) / 2 < j := Nat.div_lt_iff_lt_mul (by omega) |>.mpr (by omega)
      cases f2 with
      | zero => omega
      | succ f2 =>
        show (if i < j then _ else i) = (if i < j then _ else i)
        rw [if_pos hij, if_pos hij]
        by_cases hpm : pred ((i + j) / 2)
        · rw [if_pos hpm, if_pos hpm]
          exact ih f2 i ((i + j) / 2) (by omega) (by omega)
        · rw [if_neg hpm, if_neg hpm]
          exact ih f2 ((i + j) / 2 + 1) j (by omega) (by omega)
    · cases f2 with
      | zero => simp [goSearchF, hij]
      | succ f2 => simp [goSearchF, hij]

/-- Notify blockers of a new waiter: close (remove) every blocker whose
required count is at most the queue length. -/
def notifyBlockers (s : FC) : FC :=
  { s with blockers := s.blockers.filter (fun c => (s.waiters.length : Int) < c) }

/-- Where `setExpirer` inserts id `i` into the queue of `s` (whose store
already holds the new expiration of `i`): the `sort.Search` call, looking
for the first entry whose expiration is strictly after that of `i`. -/
def insPos (s : FC) (i : Nat) : Nat :=
  goSearch (fun k => decide ((s.store i).exp < (s.store (s.waiters.getD k 0)).exp))
    0 s.waiters.length

/-- `setExpirer`: schedule expirer `i` to expire `d` from now.  `d ≤ 0`
fires the expirer immediately against the current time and never inserts
it (the returned next-duration is discarded).  Otherwise the expiration
is set to `time + d`, the id is inserted before the first queue entry
whose expiration is strictly after it, and every blocker whose count is
reached by the new queue length is notified (removed). -/
def setExpirer (s : FC) (i : Nat) (d : Int) : FC :=
  if d ≤ 0 then
    (expireModel s i s.time).1
  else
    let s : FC := { s with store := updStore s.store i { s.store i with exp := s.time + d } }
    notifyBlockers { s with waiters := s.waiters.insertIdx (insPos s i) i }

/-- `stopExpirer`: remove the first queue entry equal to `i`, reporting
whether one was found. -/
def stopExpirer (s : FC) (i : Nat) : FC × Bool :=
  if i ∈ s.waiters then ({ s with waiters := s.waiters.erase i }, true)
  else (s, false)

/-- `FakeClock.stop` (used by `fakeTimer.Stop` and `fakeTicker.Stop`). -/
def stopOp (s : FC) (i : Nat) : FC × Bool := stopExpirer s i

/-- `newTimer`: allocate a fresh one-shot timer (empty channel, optional
`afterFunc`) and schedule it.  Returns the state and the new id.
`NewTimer d` is `newTimerOp s d false`; `AfterFunc` passes `true`. -/
def newTimerOp (s : FC) (d : Int) (hasAfterFunc : Bool) : FC × Nat :=
  let i := s.nextId
  let s : FC := { s with
    nextId := i + 1
    store := updStore s.store i (ExpData.mk (.timer hasAfterFunc) 0 0 none 0) }
  (setExpirer s i d, i)

/-- `NewTicker`: rejects a non-positive period (`none` models the panic),
otherwise allocates a fresh ticker and schedules it. -/
def newTickerOp (s : FC) (d : Int) : Option (FC × Nat) :=
  if d ≤ 0 then none
  else
    let i := s.nextId
    let s : FC := { s with
      nextId := i + 1
      store := updStore s.store i (ExpData.mk .ticker 0 d none 0) }
    some (setExpirer s i d, i)

/-- `fakeTimer.Reset`: stop if present, then schedule with the new
duration; reports whether the timer had been active. -/
def timerReset (s : FC) (i : Nat) (d : Int) : FC × Bool :=
  let p := stopExpirer s i
  (setExpirer p.1 i d, p.2)

/-- `fakeTicker.Reset`: set the period field and schedule.  Note: the
source neither validates positivity nor removes an existing queue entry
for this ticker. -/
def tickerReset (s : FC) (i : Nat) (d : Int) : FC :=
  let s : FC := { s with store := updStore s.store i { s.store i with tickD := d } }
  setExpirer s i d

/-- `FakeClock.newBlocker`: register a blocker for `n` waiters unless the
queue already has at least `n`; the `Bool` reports whether a blocker was
added (`false` = immediate success). -/
def newBlocker (s : FC) (n : Int) : FC × Bool :=
  if (s.waiters.length : Int) < n then
    ({ s with blockers := s.blockers ++ [n] }, true)
  else (s, false)

/-- One iteration of the `Advance` loop, with `w :: rest` the current
queue: pop the front, move the clock to its expiration, fire it, and
reschedule it when `expire` asks for it. -/
def advanceStep (s : FC) (w : Nat) (rest : List Nat) : FC :=
  let now := (s.store w).exp
  let s : FC := { s with waiters := rest, time := now }
  match expireModel s w now with
  | (s, some dd) => setExpirer s w dd
  | (s, none) => s

/-- The `Advance` loop on explicit fuel: expire the earliest waiter while
its expiration is not after `e`.  `none` = fuel exhausted before the loop
condition failed. -/
def advanceLoop (e : Int) : Nat → FC → Option FC
  | fuel, s =>
    match s.waiters with
    | [] => some s
    | w :: rest =>
      if (s.store w).exp ≤ e then
        match fuel with
        | 0 => none
        | fuel + 1 => advanceLoop e fuel (advanceStep s w rest)
      else some s

/-- Termination measure for the `Advance` loop: a queued timer (or a
ticker with a non-positive period) can fire at most once, a queued ticker
with period `p > 0` at most `(e - exp) / p + 1` more times within `e`. -/
def weight (e : Int) (x : ExpData) : Nat :=
  if e < x.exp then 0
  else match x.kind with
    | .timer _ => 1
    | .ticker => if x.tickD ≤ 0 then 1 else (e - x.exp).toNat / x.tickD.toNat + 1

def advMeasure (e : Int) (s : FC) : Nat :=
  (s.waiters.map (fun i => weight e (s.store i))).sum

/-- `FakeClock.Advance`: run the loop, then land the clock exactly on
`time + d`.  `none` would mean the loop ran out of fuel; the development
proves this never happens. -/
def Advance (s : FC) (d : Int) : Option FC :=
  let e := s.time + d
  (advanceLoop e (advMeasure e s) s).map fun s' => { s' with time := e }

/-! ## Projection lemmas for the operations -/

@[simp] lemma updStore_apply (f : Nat → ExpData) (i : Nat) (x : ExpData) (j : Nat) :
    updStore f i x j = if j = i then x else f j := rfl

lemma expireModel_fst_waiters (s : FC) (i : Nat) (now : Int) :
    (expireModel s i now).1.waiters = s.waiters := by
  cases hk : (s.store i).kind with
  | timer b => cases b <;> simp [expireModel, hk]
  | ticker => simp [expireModel, hk]

lemma expireModel_fst_time (s : FC) (i : Nat) (now : Int) :
    (expireModel s i now).1.time = s.time := by
  cases hk : (s.store i).kind with
  | timer b => cases b <;> simp [expireModel, hk]
  | ticker => simp [expireModel, hk]

lemma expireModel_fst_blockers (s : FC) (i : Nat) (now : Int) :
    (expireModel s i now).1.blockers = s.blockers := by
  cases hk : (s.store i).kind with
  | timer b => cases b <;> simp [expireModel, hk]
  | ticker => simp [expireModel, hk]

lemma expireModel_fst_nextId (s : FC) (i : Nat) (now : Int) :
    (expireModel s i now).1.nextId = s.nextId := by
  cases hk : (s.store i).kind with
  | timer b => cases b <;> simp [expireModel, hk]
  | ticker => simp [expireModel, hk]

lemma expireModel_fst_fired (s : FC) (i : Nat) (now : Int) :
    (expireModel s i now).1.fired = s.fired ++ [FiredEv.mk i now s.time] := by
  cases hk : (s.store i).kind with
  | timer b => cases b <;> simp [expireModel, hk]
  | ticker => simp [expireModel, hk]

lemma expireModel_fst_store_exp (s : FC) (i : Nat) (now : Int) (j : Nat) :
    ((expireModel s i now).1.store j).exp = (s.store j).exp := by
  cases hk : (s.store i).kind with
  | timer b =>
    cases b <;> simp [expireModel, hk] <;>
      · by_cases hj : j = i
        · subst hj; simp
        · simp [hj]
  | ticker =>
    simp [expireModel, hk]
    by_cases hj : j = i
    · subst hj; simp
    · simp [hj]

lemma expireModel_fst_store_kind (s : FC) (i : Nat) (now : Int) (j : Nat) :
    ((expireModel s i now).1.store j).kind = (s.store j).kind := by
  cases hk : (s.store i).kind with
  | timer b =>
    cases b <;> simp [expireModel, hk] <;>
      · by_cases hj : j = i
        · subst hj; simp [hk]
        · simp [hj]
  | ticker =>
    simp [expireModel, hk]
    by_cases hj : j = i
    · subst hj; simp [hk]
    · simp [hj]

lemma expireModel_fst_store_tickD (s : FC) (i : Nat) (now : Int) (j : Nat) :
    ((expireModel s i now).1.store j).tickD = (s.store j).tickD := by
  cases hk : (s.store i).kind with
  | timer b =>
    cases b <;> simp [expireModel, hk] <;>
      · by_cases hj : j = i
        · subst hj; simp
        · simp [hj]
  | ticker =>
    simp [expireModel, hk]
    by_cases hj : j = i
    · subst hj; simp
    · simp [hj]

lemma expireModel_snd_timer (s : FC) (i : Nat) (now : Int) (b : Bool)
    (hk : (s.store i).kind = .timer b) : (expireModel s i now).2 = none := by
  cases b <;> simp [expireModel, hk]

lemma expireModel_snd_ticker (s : FC) (i : Nat) (now : Int)
    (hk : (s.store i).kind = .ticker) :
    (expireModel s i now).2 = some (s.store i).tickD := by
  simp [expireModel, hk]

lemma expireModel_fst_store_ne (s : FC) (i : Nat) (now : Int) (j : Nat) (hj : j ≠ i) :
    (expireModel s i now).1.store j = s.store j := by
  cases hk : (s.store i).kind with
  | timer b => cases b <;> simp [expireModel, hk, hj]
  | ticker => simp [expireModel, hk, hj]

lemma setExpirer_nonpos (s : FC) (i : Nat) (d : Int) (h : d ≤ 0) :
    setExpirer s i d = (expireModel s i s.time).1 := by
  simp [setExpirer, h]

lemma setExpirer_pos (s : FC) (i : Nat) (d : Int) (h : 0 < d) :
    setExpirer s i d =
      (let s2 : FC :=
        { s with store := updStore s.store i { s.store i with exp := s.time + d } }
       notifyBlockers { s2 with waiters := s2.waiters.insertIdx (insPos s2 i) i }) := by
  rw [setExpirer, if_neg (not_le.mpr h)]

/-! ## Facts about the binary search -/

lemma goSearch_eq_pos (pred : Nat → Bool) (i j : Nat) (h : i < j) :
    goSearch pred i j =
      if pred ((i + j) / 2) then goSearch pred i ((i + j) / 2)
      else goSearch pred ((i + j) / 2 + 1) j := by
  have hm1 : i ≤ (i + j) / 2 := Nat.le_div_iff_mul_le (by omega) |>.mpr (by omega)
  have hm2 : (i + j) / 2 < j := Nat.div_lt_iff_lt_mul (by omega) |>.mpr (by omega)
  have h1 : j - i = (j - i - 1) + 1 := by omega
  show goSearchF pred (j - i) i j = _
  rw [h1]
  show (if i < j then
      if pred ((i + j) / 2) then goSearchF pred (j - i - 1) i ((i + j) / 2)
      else goSearchF pred (j - i - 1) ((i + j) / 2 + 1) j
    else i) = _
  rw [if_pos h]
  by_cases hpm : pred ((i + j) / 2)
  · rw [if_pos hpm, if_pos hpm]
    exact goSearchF_irrel pred _ _ i ((i + j) / 2) (by omega) le_rfl
  · rw [if_neg hpm, if_neg hpm]
    exact goSearchF_irrel pred _ _ ((i + j) / 2 + 1) j (by omega) le_rfl

lemma goSearch_eq_neg (pred : Nat → Bool) (i j : Nat) (h : ¬ i < j) :
    goSearch pred i j = i := by
  have h0 : j - i = 0 := by omega
  show goSearchF pred (j - i) i j = i
  rw [h0]
  rfl

lemma goSearch_ge_aux (pred : Nat → Bool) :
    ∀ fuel i j, j - i ≤ fuel → i ≤ goSearch pred i j := by
  intro fuel
  induction fuel with
  | zero => intro i j hf; rw [goSearch_eq_neg pred i j (by omega)]
  | succ fuel ih =>
    intro i j hf
    by_cases hij : i < j
    · have hm1 : i ≤ (i + j) / 2 := Nat.le_div_iff_mul_le (by omega) |>.mpr (by omega)
      have hm2 : (i + j) / 2 < j := Nat.div_lt_iff_lt_mul (by omega) |>.mpr (by omega)
      rw [goSearch_eq_pos pred i j hij]
      cases hpm : pred ((i + j) / 2) with
      | true =>
        rw [if_pos rfl]
        exact ih i ((i + j) / 2) (by omega)
      | false =>
        rw [if_neg (by simp)]
        exact le_trans (by omega) (ih ((i + j) / 2 + 1) j (by omega))
    · rw [goSearch_eq_neg pred i j hij]

lemma goSearch_ge (pred : Nat → Bool) (i j : Nat) : i ≤ goSearch pred i j :=
  goSearch_ge_aux pred (j - i) i j le_rfl

lemma goSearch_le_aux (pred : Nat → Bool) :
    ∀ fuel i j, j - i ≤ fuel → i ≤ j → goSearch pred i j ≤ j := by
  intro fuel
  induction fuel with
  | zero => intro i j hf hij; rw [goSearch_eq_neg pred i j (by omega)]; exact hij
  | succ fuel ih =>
    intro i j hf hij'
    by_cases hij : i < j
    · have hm1 : i ≤ (i + j) / 2 := Nat.le_div_iff_mul_le (by omega) |>.mpr (by omega)
      have hm2 : (i + j) / 2 < j := Nat.div_lt_iff_lt_mul (by omega) |>.mpr (by omega)
      rw [goSearch_eq_pos pred i j hij]
      cases hpm : pred ((i + j) / 2) with
      | true =>
        rw [if_pos rfl]
        exact le_trans (ih i ((i + j) / 2) (by omega) hm1) (le_of_lt hm2)
      | false =>
        rw [if_neg (by simp)]
        exact ih ((i + j) / 2 + 1) j (by omega) (by omega)
    · rw [goSearch_eq_neg pred i j hij]; exact hij'

lemma goSearch_le (pred : Nat → Bool) (i j : Nat) (h : i ≤ j) : goSearch pred i j ≤ j :=
  goSearch_le_aux pred (j - i) i j le_rfl h

/-- Correctness of `sort.Search` on `[0, n)` for a monotone predicate,
stated for a general well-formed sub-range: the result splits the range
into a false block below and a true block above. -/
lemma goSearch_found (pred : Nat → Bool) (n : Nat)
    (hmono : ∀ k1 k2, k1 ≤ k2 → k2 < n → pred k1 = true → pred k2 = true) :
    ∀ fuel i j, j - i ≤ fuel → j ≤ n →
      (∀ k, k < i → pred k = false) → (∀ k, j ≤ k → k < n → pred k = true) →
      (∀ k, k < goSearch pred i j → pred k = false) ∧
      (∀ k, goSearch pred i j ≤ k → k < n → pred k = true) := by
  intro fuel
  induction fuel with
  | zero =>
    intro i j hf hj hlo hhi
    rw [goSearch_eq_neg pred i j (by omega)]
    exact ⟨hlo, fun k hk hkn => hhi k (by omega) hkn⟩
  | succ fuel ih =>
    intro i j hf hj hlo hhi
    by_cases hij : i < j
    · rw [goSearch_eq_pos pred i j hij]
      have hm1 : i ≤ (i + j) / 2 := Nat.le_div_iff_mul_le (by omega) |>.mpr (by omega)
      have hm2 : (i + j) / 2 < j := Nat.div_lt_iff_lt_mul (by omega) |>.mpr (by omega)
      cases hpm : pred ((i + j) / 2) with
      | true =>
        rw [if_pos rfl]
        exact ih i ((i + j) / 2) (by omega) (by omega) hlo
          (fun k hk hkn => hmono _ k hk hkn hpm)
      | false =>
        rw [if_neg (by simp)]
        refine ih ((i + j) / 2 + 1) j (by omega) hj (fun k hk => ?_) hhi
        cases hq : pred k with
        | true =>
          exact absurd (hmono k ((i + j) / 2) (by omega) (by omega) hq) (by simp [hpm])
        | false => rfl
    · rw [goSearch_eq_neg pred i j hij]
      exact ⟨hlo, fun k hk hkn => hhi k (by omega) hkn⟩

/-! ## List helpers -/

lemma insertIdx_eq_take_cons_drop {α : Type _} (a : α) :
    ∀ (n : Nat) (l : List α), n ≤ l.length →
      l.insertIdx n a = l.take n ++ a :: l.drop n := by
  intro n
  induction n with
  | zero => intro l _; simp
  | succ n ih =>
    intro l h
    cases l with
    | nil => simp at h
    | cons x xs =>
      simp only [List.insertIdx_succ_cons, List.take_succ_cons, List.drop_succ_cons,
        List.cons_append]
      rw [ih xs (by simpa using h)]

lemma insertIdx_perm {α : Type _} (a : α) (n : Nat) (l : List α) (h : n ≤ l.length) :
    (l.insertIdx n a).Perm (a :: l) := by
  rw [insertIdx_eq_take_cons_drop a n l h]
  refine (List.perm_middle).trans ?_
  rw [List.take_append_drop]

lemma sublist_insertIdx {α : Type _} (a : α) (n : Nat) (l : List α) (h : n ≤ l.length) :
    l.Sublist (l.insertIdx n a) := by
  rw [insertIdx_eq_take_cons_drop a n l h]
  conv_lhs => rw [← List.take_append_drop n l]
  exact List.Sublist.append_left (List.sublist_cons_self _ _) _

/-! ## The termination measure of the Advance loop -/

lemma weight_congr {e : Int} {x y : ExpData} (he : x.exp = y.exp)
    (hk : x.kind = y.kind) (ht : x.tickD = y.tickD) : weight e x = weight e y := by
  unfold weight
  rw [he, hk, ht]

lemma weight_expireModel (e : Int) (s : FC) (i : Nat) (now : Int) (j : Nat) :
    weight e ((expireModel s i now).1.store j) = weight e (s.store j) :=
  weight_congr (expireModel_fst_store_exp s i now j) (expireModel_fst_store_kind s i now j)
    (expireModel_fst_store_tickD s i now j)

lemma weight_timer (e : Int) (x : ExpData) (b : Bool) (hk : x.kind = .timer b) :
    weight e x = if e < x.exp then 0 else 1 := by
  simp [weight, hk]

lemma weight_ticker_nonpos (e : Int) (x : ExpData) (hk : x.kind = .ticker)
    (ht : x.tickD ≤ 0) : weight e x = if e < x.exp then 0 else 1 := by
  simp [weight, hk, ht]

lemma weight_ticker_pos (e : Int) (x : ExpData) (hk : x.kind = .ticker)
    (ht : 0 < x.tickD) :
    weight e x = if e < x.exp then 0 else (e - x.exp).toNat / x.tickD.toNat + 1 := by
  simp [weight, hk, if_neg (not_le.mpr ht)]

lemma weight_pos (e : Int) (x : ExpData) (h : x.exp ≤ e) : 1 ≤ weight e x := by
  cases hk : x.kind with
  | timer b => rw [weight_timer e x b hk, if_neg (not_lt.mpr h)]
  | ticker =>
    rcases le_or_lt x.tickD 0 with ht | ht
    · rw [weight_ticker_nonpos e x hk ht, if_neg (not_lt.mpr h)]
    · rw [weight_ticker_pos e x hk ht, if_neg (not_lt.mpr h)]
      exact Nat.le_add_left 1 _

lemma advMeasure_eq (e : Int) (s : FC) :
    advMeasure e s = (s.waiters.map fun i => weight e (s.store i)).sum := rfl

/-- The state `setExpirer` builds before inserting into the queue: the
store already holds the new expiration of `i`. -/
def schedState (s : FC) (i : Nat) (d : Int) : FC :=
  { s with store := updStore s.store i { s.store i with exp := s.time + d } }

lemma setExpirer_pos2 (s : FC) (i : Nat) (d : Int) (h : 0 < d) :
    setExpirer s i d =
      notifyBlockers { schedState s i d with
        waiters := (schedState s i d).waiters.insertIdx (insPos (schedState s i d) i) i } := by
  rw [setExpirer_pos s i d h]; rfl

lemma advMeasure_notifyBlockers (e : Int) (s : FC) :
    advMeasure e (notifyBlockers s) = advMeasure e s := rfl

/-- One iteration of the Advance loop strictly decreases the measure. -/
lemma advanceStep_measure_lt (e : Int) (s : FC) (w : Nat) (rest : List Nat)
    (hw : s.waiters = w :: rest) (hle : (s.store w).exp ≤ e) :
    advMeasure e (advanceStep s w rest) < advMeasure e s := by
  have hms : advMeasure e s
      = weight e (s.store w) + (rest.map fun i => weight e (s.store i)).sum := by
    rw [advMeasure_eq, hw]; simp
  have hWpos : 1 ≤ weight e (s.store w) := weight_pos e _ hle
  set s1 : FC := { s with waiters := rest, time := (s.store w).exp } with hs1
  have hstep : advanceStep s w rest =
      (match expireModel s1 w (s.store w).exp with
       | (s2, some dd) => setExpirer s2 w dd
       | (s2, none) => s2) := rfl
  have hs1store : s1.store = s.store := rfl
  cases hk : (s.store w).kind with
  | timer b =>
    rcases hEM : expireModel s1 w (s.store w).exp with ⟨s2, dd⟩
    have hdd : dd = none := by
      have h := expireModel_snd_timer s1 w (s.store w).exp b hk
      rw [hEM] at h; exact h
    subst hdd
    rw [hstep, hEM]
    show advMeasure e s2 < advMeasure e s
    have hwait : s2.waiters = rest := by
      have h := expireModel_fst_waiters s1 w (s.store w).exp
      rw [hEM] at h; exact h
    have hwgt : ∀ j, weight e (s2.store j) = weight e (s.store j) := by
      intro j
      have h := weight_expireModel e s1 w (s.store w).exp j
      rw [hEM] at h; exact h
    have : advMeasure e s2 = (rest.map fun i => weight e (s.store i)).sum := by
      rw [advMeasure_eq, hwait]
      simp only [hwgt]
    omega
  | ticker =>
    rcases hEM : expireModel s1 w (s.store w).exp with ⟨s2, dd⟩
    have hdd : dd = some (s.store w).tickD := by
      have h := expireModel_snd_ticker s1 w (s.store w).exp hk
      rw [hEM] at h; exact h
    subst hdd
    rw [hstep, hEM]
    show advMeasure e (setExpirer s2 w (s.store w).tickD) < advMeasure e s
    have hwait : s2.waiters = rest := by
      have h := expireModel_fst_waiters s1 w (s.store w).exp
      rw [hEM] at h; exact h
    have htime : s2.time = (s.store w).exp := by
      have h := expireModel_fst_time s1 w (s.store w).exp
      rw [hEM] at h; exact h
    have hwgt : ∀ j, weight e (s2.store j) = weight e (s.store j) := by
      intro j
      have h := weight_expireModel e s1 w (s.store w).exp j
      rw [hEM] at h; exact h
    have hne : ∀ j, j ≠ w → s2.store j = s.store j := by
      intro j hj
      have h := expireModel_fst_store_ne s1 w (s.store w).exp j hj
      rw [hEM] at h; exact h
    have hexp2 : (s2.store w).exp = (s.store w).exp := by
      have h := expireModel_fst_store_exp s1 w (s.store w).exp w
      rw [hEM] at h; exact h
    have hkind2 : (s2.store w).kind = .ticker := by
      have h := expireModel_fst_store_kind s1 w (s.store w).exp w
      rw [hEM] at h; rw [h, hk]
    have htD2 : (s2.store w).tickD = (s.store w).tickD := by
      have h := expireModel_fst_store_tickD s1 w (s.store w).exp w
      rw [hEM] at h; exact h
    rcases le_or_lt (s.store w).tickD 0 with htD | htD
    · rw [setExpirer_nonpos s2 w _ htD]
      have hwait3 : (expireModel s2 w s2.time).1.waiters = rest := by
        rw [expireModel_fst_waiters, hwait]
      have : advMeasure e (expireModel s2 w s2.time).1
          = (rest.map fun i => weight e (s.store i)).sum := by
        rw [advMeasure_eq, hwait3]
        simp only [weight_expireModel, hwgt]
      omega
    · rw [setExpirer_pos2 s2 w _ htD]
      rw [advMeasure_notifyBlockers]
      set tD := (s.store w).tickD with htDdef
      set sch := schedState s2 w tD with hsch
      clear_value tD sch
      have hschwait : sch.waiters = rest := by rw [hsch, schedState]; exact hwait
      have hpos : insPos sch w ≤ rest.length := by
        have h := goSearch_le
          (fun k => decide ((sch.store w).exp < (sch.store (sch.waiters.getD k 0)).exp))
          0 sch.waiters.length (Nat.zero_le _)
        exact le_trans h (le_of_eq (congrArg List.length hschwait))
      have hmeq : advMeasure e { sch with waiters := sch.waiters.insertIdx (insPos sch w) w }
          = ((sch.waiters.insertIdx (insPos sch w) w).map
              fun i => weight e (sch.store i)).sum := rfl
      have hsum : ((sch.waiters.insertIdx (insPos sch w) w).map
            fun i => weight e (sch.store i)).sum
          = weight e (sch.store w) + (rest.map fun i => weight e (sch.store i)).sum := by
        have hperm : (sch.waiters.insertIdx (insPos sch w) w).Perm (w :: rest) := by
          rw [hschwait]
          exact insertIdx_perm w (insPos sch w) rest hpos
        have h2 := (hperm.map fun i => weight e (sch.store i)).sum_eq
        simpa using h2
      have hschw : sch.store w = { s2.store w with exp := s2.time + tD } := by
        rw [hsch, schedState]; simp
      have hschne : ∀ j, j ≠ w → sch.store j = s.store j := by
        intro j hj
        rw [hsch, schedState]
        simp only [updStore_apply, if_neg hj]
        exact hne j hj
      -- the key arithmetic: requeueing at now + tickD loses at least one weight unit
      have hkey : weight e (sch.store w) + 1 ≤ weight e (s.store w) := by
        have hW : weight e (s.store w)
            = (e - (s.store w).exp).toNat / tD.toNat + 1 := by
          rw [weight_ticker_pos e (s.store w) hk (htDdef ▸ htD),
            if_neg (not_lt.mpr hle), htDdef]
        have hXexp : (sch.store w).exp = (s.store w).exp + tD := by
          rw [hschw]; simp [htime, htD2]
        have hXkind : (sch.store w).kind = .ticker := by rw [hschw]; simpa using hkind2
        have hXtD : (sch.store w).tickD = tD := by rw [hschw]; simpa using htD2
        by_cases he2 : e < (s.store w).exp + tD
        · have : weight e (sch.store w) = 0 := by
            rw [weight_ticker_pos e _ hXkind (hXtD ▸ htD), if_pos (hXexp ▸ he2)]
          omega
        · have hW2 : weight e (sch.store w)
              = (e - ((s.store w).exp + tD)).toNat / tD.toNat + 1 := by
            rw [weight_ticker_pos e _ hXkind (hXtD ▸ htD),
              if_neg (hXexp ▸ he2), hXexp, hXtD]
          have h1 : (e - (s.store w).exp).toNat
              = (e - ((s.store w).exp + tD)).toNat + tD.toNat := by
            clear hW hW2
            omega
          have htDn : 0 < tD.toNat := by clear hW hW2 h1; omega
          rw [hW, hW2, h1, Nat.add_div_right _ htDn]
      have hrest : ((rest.map fun i => weight e (sch.store i))).sum
          ≤ ((rest.map fun i => weight e (s.store i))).sum := by
        refine List.sum_le_sum ?_
        intro j hj
        by_cases hjw : j = w
        · subst hjw; omega
        · rw [hschne j hjw]
      rw [hmeq, hsum]
      omega

/-! ## The Advance loop always terminates within its fuel -/

lemma advanceLoop_eq_nil (e : Int) (fuel : Nat) (s : FC) (hw : s.waiters = []) :
    advanceLoop e fuel s = some s := by
  rw [advanceLoop, hw]

lemma advanceLoop_eq_stop (e : Int) (fuel : Nat) (s : FC) (w : Nat) (rest : List Nat)
    (hw : s.waiters = w :: rest) (hgt : ¬ (s.store w).exp ≤ e) :
    advanceLoop e fuel s = some s := by
  rw [advanceLoop, hw]
  exact if_neg hgt

lemma advanceLoop_eq_zero (e : Int) (s : FC) (w : Nat) (rest : List Nat)
    (hw : s.waiters = w :: rest) (hle : (s.store w).exp ≤ e) :
    advanceLoop e 0 s = none := by
  have h : advanceLoop e 0 s = if (s.store w).exp ≤ e then none else some s := by
    rw [advanceLoop, hw]
  rw [h, if_pos hle]

lemma advanceLoop_eq_succ (e : Int) (fuel : Nat) (s : FC) (w : Nat) (rest : List Nat)
    (hw : s.waiters = w :: rest) (hle : (s.store w).exp ≤ e) :
    advanceLoop e (fuel + 1) s = advanceLoop e fuel (advanceStep s w rest) := by
  have h : advanceLoop e (fuel + 1) s =
      if (s.store w).exp ≤ e then advanceLoop e fuel (advanceStep s w rest)
      else some s := by
    rw [advanceLoop, hw]
  rw [h, if_pos hle]

lemma advMeasure_cons (e : Int) (s : FC) (w : Nat) (rest : List Nat)
    (hw : s.waiters = w :: rest) :
    advMeasure e s = weight e (s.store w) + (rest.map fun i => weight e (s.store i)).sum := by
  rw [advMeasure_eq, hw]; simp

lemma advanceLoop_isSome (e : Int) :
    ∀ fuel s, advMeasure e s ≤ fuel → ∃ s2, advanceLoop e fuel s = some s2 := by
  intro fuel
  induction fuel with
  | zero =>
    intro s hm
    cases hw : s.waiters with
    | nil => exact ⟨s, advanceLoop_eq_nil e 0 s hw⟩
    | cons w rest =>
      by_cases hle : (s.store w).exp ≤ e
      · exfalso
        have h1 := weight_pos e (s.store w) hle
        have h2 := advMeasure_cons e s w rest hw
        omega
      · exact ⟨s, advanceLoop_eq_stop e 0 s w rest hw hle⟩
  | succ fuel ih =>
    intro s hm
    cases hw : s.waiters with
    | nil => exact ⟨s, advanceLoop_eq_nil e _ s hw⟩
    | cons w rest =>
      by_cases hle : (s.store w).exp ≤ e
      · have hlt := advanceStep_measure_lt e s w rest hw hle
        obtain ⟨s2, h2⟩ := ih (advanceStep s w rest) (by omega)
        exact ⟨s2, by rw [advanceLoop_eq_succ e fuel s w rest hw hle]; exact h2⟩
      · exact ⟨s, advanceLoop_eq_stop e _ s w rest hw hle⟩

/-- `Advance` never runs out of fuel: it always returns a state. -/
lemma Advance_isSome (s : FC) (d : Int) :
    ∃ s1 s2, advanceLoop (s.time + d) (advMeasure (s.time + d) s) s = some s1 ∧
      Advance s d = some s2 ∧ s2 = { s1 with time := s.time + d } := by
  obtain ⟨s1, h⟩ := advanceLoop_isSome (s.time + d) (advMeasure (s.time + d) s) s le_rfl
  refine ⟨s1, { s1 with time := s.time + d }, h, ?_, rfl⟩
  have h2 : Advance s d = (advanceLoop (s.time + d) (advMeasure (s.time + d) s) s).map
      (fun s' => { s' with time := s.time + d }) := rfl
  rw [h2, h]
  rfl

lemma Advance_eq (s : FC) (d : Int) :
    Advance s d = (advanceLoop (s.time + d) (advMeasure (s.time + d) s) s).map
      (fun s1 => { s1 with time := s.time + d }) := rfl

/-! ## The queue order invariant -/

/-- The waiter queue is sorted: adjacent entries have non-decreasing
expiration instants (stated for all pairs in order, which is equivalent
for a transitive relation). -/
def SortedQ (st : Nat → ExpData) (l : List Nat) : Prop :=
  l.Pairwise (fun a b => (st a).exp ≤ (st b).exp)

def Sorted (s : FC) : Prop := SortedQ s.store s.waiters

instance (st : Nat → ExpData) (l : List Nat) : Decidable (SortedQ st l) :=
  List.instDecidablePairwise l

instance (s : FC) : Decidable (Sorted s) :=
  List.instDecidablePairwise s.waiters

lemma SortedQ.sublist {st : Nat → ExpData} {l l' : List Nat}
    (h : SortedQ st l) (hs : l'.Sublist l) : SortedQ st l' :=
  List.Pairwise.sublist hs h

/-- The binary search splits a sorted queue around the new instant:
everything before the returned position expires at or before it,
everything from the position on expires strictly after it. -/
lemma insPos_split (t : FC) (i : Nat) (hsort : Sorted t) :
    (∀ k, k < insPos t i → ∀ hk : k < t.waiters.length,
        (t.store (t.waiters.get ⟨k, hk⟩)).exp ≤ (t.store i).exp) ∧
    (∀ k, insPos t i ≤ k → ∀ hk : k < t.waiters.length,
        (t.store i).exp < (t.store (t.waiters.get ⟨k, hk⟩)).exp) ∧
    insPos t i ≤ t.waiters.length := by
  have hmono : ∀ k1 k2, k1 ≤ k2 → k2 < t.waiters.length →
      (fun k => decide ((t.store i).exp < (t.store (t.waiters.getD k 0)).exp)) k1 = true →
      (fun k => decide ((t.store i).exp < (t.store (t.waiters.getD k 0)).exp)) k2 = true := by
    intro k1 k2 h12 h2 h1
    rcases eq_or_lt_of_le h12 with rfl | hlt
    · exact h1
    · have hk1 : k1 < t.waiters.length := lt_trans hlt h2
      simp only [decide_eq_true_eq] at h1 ⊢
      have hpw := List.pairwise_iff_getElem.mp hsort k1 k2 hk1 h2 hlt
      rw [List.getD_eq_getElem _ _ hk1] at h1
      rw [List.getD_eq_getElem _ _ h2]
      exact lt_of_lt_of_le h1 hpw
  have hfound := goSearch_found _ t.waiters.length hmono t.waiters.length 0
    t.waiters.length le_rfl le_rfl (fun k hk => absurd hk (Nat.not_lt_zero k))
    (fun k hk hkn => absurd hkn (not_lt.mpr hk))
  refine ⟨?_, ?_, goSearch_le _ 0 t.waiters.length (Nat.zero_le _)⟩
  · intro k hk hklen
    have h2 := of_decide_eq_false (hfound.1 k hk)
    rw [List.getD_eq_getElem _ _ hklen] at h2
    simpa [List.get_eq_getElem] using not_lt.mp h2
  · intro k hk hklen
    have h2 := of_decide_eq_true (hfound.2 k hk hklen)
    rw [List.getD_eq_getElem _ _ hklen] at h2
    simpa [List.get_eq_getElem] using h2

/-- Members of `l.take n` occur in `l` at an index below `n`. -/
lemma exists_get_of_mem_take {α : Type _} {l : List α} {n : Nat} {x : α}
    (h : x ∈ l.take n) :
    ∃ k, k < n ∧ ∃ hk : k < l.length, l.get ⟨k, hk⟩ = x := by
  obtain ⟨k, hk, hx⟩ := List.mem_iff_getElem.mp h
  have hlen : k < min n l.length := by simpa using hk
  have hkn : k < n := lt_of_lt_of_le hlen (min_le_left _ _)
  have hkl : k < l.length := lt_of_lt_of_le hlen (min_le_right _ _)
  refine ⟨k, hkn, hkl, ?_⟩
  rw [List.get_eq_getElem]
  rw [List.getElem_take] at hx
  exact hx

/-- Members of `l.drop n` occur in `l` at an index at or above `n`. -/
lemma exists_get_of_mem_drop {α : Type _} {l : List α} {n : Nat} {x : α}
    (h : x ∈ l.drop n) :
    ∃ k, n ≤ k ∧ ∃ hk : k < l.length, l.get ⟨k, hk⟩ = x := by
  obtain ⟨k, hk, hx⟩ := List.mem_iff_getElem.mp h
  rw [List.getElem_drop] at hx
  have hlen : k < l.length - n := by simpa using hk
  have hkl : n + k < l.length := by omega
  refine ⟨n + k, Nat.le_add_right _ _, hkl, ?_⟩
  rw [List.get_eq_getElem]
  exact hx

/-- The effect of a positive-duration `setExpirer` on each component of
the state. -/
lemma setExpirer_pos_parts (s : FC) (i : Nat) (d : Int) (hd : 0 < d) :
    insPos (schedState s i d) i ≤ s.waiters.length ∧
    (setExpirer s i d).waiters = s.waiters.insertIdx (insPos (schedState s i d) i) i ∧
    (setExpirer s i d).store = updStore s.store i { s.store i with exp := s.time + d } ∧
    (setExpirer s i d).time = s.time ∧
    (setExpirer s i d).nextId = s.nextId ∧
    (setExpirer s i d).fired = s.fired ∧
    (setExpirer s i d).blockers
      = s.blockers.filter (fun c => ((s.waiters.length : Int) + 1) < c) := by
  have hpos : insPos (schedState s i d) i ≤ s.waiters.length :=
    goSearch_le _ 0 _ (Nat.zero_le _)
  refine ⟨hpos, ?_, ?_, ?_, ?_, ?_, ?_⟩
  · rw [setExpirer_pos2 s i d hd]; rfl
  · rw [setExpirer_pos2 s i d hd]; rfl
  · rw [setExpirer_pos2 s i d hd]; rfl
  · rw [setExpirer_pos2 s i d hd]; rfl
  · rw [setExpirer_pos2 s i d hd]; rfl
  · rw [setExpirer_pos2 s i d hd]
    have hlen : (s.waiters.insertIdx (insPos (schedState s i d) i) i).length
        = s.waiters.length + 1 := List.length_insertIdx _ _ hpos
    show List.filter
        (fun c => decide
          (((s.waiters.insertIdx (insPos (schedState s i d) i) i).length : Int) < c))
        s.blockers = _
    congr 1
    funext c
    rw [hlen]
    norm_cast

/-- A store update outside the queue does not disturb its sortedness. -/
lemma sortedQ_updStore_notin {st : Nat → ExpData} {l : List Nat} {i : Nat} {x : ExpData}
    (hnotin : i ∉ l) (h : SortedQ st l) : SortedQ (updStore st i x) l := by
  refine h.imp_of_mem ?_
  intro a b ha hb hab
  have hai : a ≠ i := fun hh => hnotin (hh ▸ ha)
  have hbi : b ≠ i := fun hh => hnotin (hh ▸ hb)
  simpa [updStore_apply, hai, hbi] using hab

/-- Inserting a fresh id with a positive duration into a sorted queue:
the old queue splits as `l1 ++ l2` with the new entry placed between,
after every entry expiring at or before the new instant (`l1`) and
before every entry expiring strictly after it (`l2`); the result is
sorted again. -/
lemma setExpirer_sorted_insert (s : FC) (i : Nat) (d : Int) (hd : 0 < d)
    (hnotin : i ∉ s.waiters) (hsort : Sorted s) :
    ∃ l1 l2, s.waiters = l1 ++ l2 ∧
      (setExpirer s i d).waiters = l1 ++ i :: l2 ∧
      (∀ j ∈ l1, (s.store j).exp ≤ s.time + d) ∧
      (∀ j ∈ l2, s.time + d < (s.store j).exp) ∧
      Sorted (setExpirer s i d) := by
  obtain ⟨hpos, hwait, hstore, htime, hnext, hfired, hblock⟩ := setExpirer_pos_parts s i d hd
  set pos := insPos (schedState s i d) i with hposdef
  have hsch_sorted : Sorted (schedState s i d) :=
    sortedQ_updStore_notin hnotin hsort
  have hsch_exp_i : ((schedState s i d).store i).exp = s.time + d := by
    simp [schedState]
  have hsch_exp_ne : ∀ j, j ≠ i →
      ((schedState s i d).store j).exp = (s.store j).exp := by
    intro j hj
    simp [schedState, updStore_apply, hj]
  obtain ⟨hbelow, habove, _⟩ := insPos_split (schedState s i d) i hsch_sorted
  have hmem_ne : ∀ j ∈ s.waiters, j ≠ i := fun j hj hh => hnotin (hh ▸ hj)
  have hbelow2 : ∀ k, k < pos → ∀ hk : k < s.waiters.length,
      ((schedState s i d).store (s.waiters.get ⟨k, hk⟩)).exp ≤ s.time + d := by
    intro k hkp hk
    have h : ((schedState s i d).store (s.waiters.get ⟨k, hk⟩)).exp
        ≤ ((schedState s i d).store i).exp := hbelow k hkp hk
    rw [hsch_exp_i] at h
    exact h
  have habove2 : ∀ k, pos ≤ k → ∀ hk : k < s.waiters.length,
      s.time + d < ((schedState s i d).store (s.waiters.get ⟨k, hk⟩)).exp := by
    intro k hkp hk
    have h : ((schedState s i d).store i).exp
        < ((schedState s i d).store (s.waiters.get ⟨k, hk⟩)).exp := habove k hkp hk
    rw [hsch_exp_i] at h
    exact h
  -- entries of the take-prefix expire at or before the new instant
  have hl1 : ∀ j ∈ s.waiters.take pos, (s.store j).exp ≤ s.time + d := by
    intro j hj
    obtain ⟨k, hkpos, hk, hget⟩ := exists_get_of_mem_take hj
    have h := hbelow2 k hkpos hk
    rw [hget] at h
    have hjw : j ∈ s.waiters := List.take_subset _ _ hj
    rw [hsch_exp_ne j (hmem_ne j hjw)] at h
    exact h
  have hl2 : ∀ j ∈ s.waiters.drop pos, s.time + d < (s.store j).exp := by
    intro j hj
    obtain ⟨k, hkpos, hk, hget⟩ := exists_get_of_mem_drop hj
    have h := habove2 k hkpos hk
    rw [hget] at h
    have hjw : j ∈ s.waiters := List.drop_subset _ _ hj
    rw [hsch_exp_ne j (hmem_ne j hjw)] at h
    exact h
  refine ⟨s.waiters.take pos, s.waiters.drop pos,
    (List.take_append_drop pos s.waiters).symm, ?_, hl1, hl2, ?_⟩
  · rw [hwait, insertIdx_eq_take_cons_drop i pos _ hpos]
  · -- sortedness of the new queue
    unfold Sorted SortedQ
    rw [hwait, insertIdx_eq_take_cons_drop i pos _ hpos, hstore]
    have hRR : ∀ a ∈ s.waiters, ∀ b ∈ s.waiters,
        (s.store a).exp ≤ (s.store b).exp →
        ((updStore s.store i { s.store i with exp := s.time + d } a).exp
          ≤ (updStore s.store i { s.store i with exp := s.time + d } b).exp) := by
      intro a ha b hb hab
      simpa [updStore_apply, hmem_ne a ha, hmem_ne b hb] using hab
    have hupd_i : (updStore s.store i { s.store i with exp := s.time + d } i).exp
        = s.time + d := by simp [updStore_apply]
    have hupd_ne : ∀ j, j ≠ i →
        (updStore s.store i { s.store i with exp := s.time + d } j).exp
          = (s.store j).exp := by
      intro j hj; simp [updStore_apply, hj]
    have hsort2 : List.Pairwise (fun a b => (s.store a).exp ≤ (s.store b).exp)
        (s.waiters.take pos ++ s.waiters.drop pos) := by
      rw [List.take_append_drop]
      exact hsort
    have hsplit := List.pairwise_append.mp hsort2
    refine List.pairwise_append.mpr ⟨?_, ?_, ?_⟩
    · refine hsplit.1.imp_of_mem ?_
      intro a b ha hb hab
      have haw : a ∈ s.waiters := List.take_subset _ _ ha
      have hbw : b ∈ s.waiters := List.take_subset _ _ hb
      exact hRR a haw b hbw hab
    · rw [List.pairwise_cons]
      constructor
      · intro b hb
        rw [hupd_i, hupd_ne b (hmem_ne b (List.drop_subset _ _ hb))]
        exact le_of_lt (hl2 b hb)
      · refine hsplit.2.1.imp_of_mem ?_
        intro a b ha hb hab
        exact hRR a (List.drop_subset _ _ ha) b (List.drop_subset _ _ hb) hab
    · intro a ha b hb
      rcases List.mem_cons.mp hb with rfl | hb2
      · rw [hupd_i, hupd_ne a (hmem_ne a (List.take_subset _ _ ha))]
        exact hl1 a ha
      · exact hRR a (List.take_subset _ _ ha) b (List.drop_subset _ _ hb2)
          (hsplit.2.2 a ha b hb2)

/-! ## stopExpirer characterization -/

lemma stopExpirer_mem (s : FC) (i : Nat) (h : i ∈ s.waiters) :
    stopExpirer s i = ({ s with waiters := s.waiters.erase i }, true) := by
  simp [stopExpirer, h]

lemma stopExpirer_not_mem (s : FC) (i : Nat) (h : i ∉ s.waiters) :
    stopExpirer s i = (s, false) := by
  simp [stopExpirer, h]

/-! ## The full state invariant -/

/-- The engine invariant between public operations: the queue is sorted,
holds no duplicate entries, every queued id has been allocated, and every
queued expiration is strictly after the current time. -/
def Inv (s : FC) : Prop :=
  Sorted s ∧ s.waiters.Nodup ∧ (∀ j ∈ s.waiters, j < s.nextId) ∧
    (∀ j ∈ s.waiters, s.time < (s.store j).exp)

instance (s : FC) : Decidable (Inv s) := by
  unfold Inv
  infer_instance

lemma sortedQ_congr {st st' : Nat → ExpData} {l : List Nat}
    (h : ∀ j ∈ l, (st' j).exp = (st j).exp) (hs : SortedQ st l) : SortedQ st' l := by
  refine hs.imp_of_mem ?_
  intro a b ha hb hab
  rw [h a ha, h b hb]
  exact hab

/-- Everything one Advance-loop iteration does to the state, under the
queue invariants: the clock moves to the popped entry\u2019s expiration, that
entry fires once (twice when a non-positive-period ticker refires
immediately), the remaining entries survive in order with their data
untouched, a reinserted ticker comes back with a strictly later
expiration, and sortedness and freedom from duplicates are preserved. -/
lemma advanceStep_spec (s : FC) (w : Nat) (rest : List Nat)
    (hw : s.waiters = w :: rest) (hsort : Sorted s) (hnd : s.waiters.Nodup) :
    (advanceStep s w rest).time = (s.store w).exp ∧
    (advanceStep s w rest).nextId = s.nextId ∧
    (∃ k, 1 ≤ k ∧ k ≤ 2 ∧ (advanceStep s w rest).fired
      = s.fired ++ List.replicate k (FiredEv.mk w (s.store w).exp (s.store w).exp)) ∧
    rest.Sublist (advanceStep s w rest).waiters ∧
    (∀ x ∈ (advanceStep s w rest).waiters, x = w ∨ x ∈ rest) ∧
    (∀ j, j ≠ w → (advanceStep s w rest).store j = s.store j) ∧
    (∀ x ∈ (advanceStep s w rest).waiters,
      (s.store w).exp ≤ ((advanceStep s w rest).store x).exp) ∧
    Sorted (advanceStep s w rest) ∧
    (advanceStep s w rest).waiters.Nodup := by
  have hwnotin : w ∉ rest := by
    rw [hw] at hnd
    exact (List.nodup_cons.mp hnd).1
  have hndrest : rest.Nodup := by
    rw [hw] at hnd
    exact (List.nodup_cons.mp hnd).2
  have hrestle : ∀ x ∈ rest, (s.store w).exp ≤ (s.store x).exp := by
    intro x hx
    have h := hsort
    unfold Sorted SortedQ at h
    rw [hw, List.pairwise_cons] at h
    exact h.1 x hx
  set s1 : FC := { s with waiters := rest, time := (s.store w).exp } with hs1
  have hstep : advanceStep s w rest =
      (match expireModel s1 w (s.store w).exp with
       | (s2, some dd) => setExpirer s2 w dd
       | (s2, none) => s2) := rfl
  have hev : FiredEv.mk w (s.store w).exp s1.time
      = FiredEv.mk w (s.store w).exp (s.store w).exp := rfl
  cases hk : (s.store w).kind with
  | timer b =>
    rcases hEM : expireModel s1 w (s.store w).exp with ⟨s2, dd⟩
    have hdd : dd = none := by
      have h := expireModel_snd_timer s1 w (s.store w).exp b hk
      rw [hEM] at h; exact h
    subst hdd
    have hstep2 : advanceStep s w rest = s2 := by rw [hstep, hEM]
    rw [hstep2]
    have hwait : s2.waiters = rest := by
      have h := expireModel_fst_waiters s1 w (s.store w).exp; rw [hEM] at h; exact h
    have htime : s2.time = (s.store w).exp := by
      have h := expireModel_fst_time s1 w (s.store w).exp; rw [hEM] at h; exact h
    have hnid : s2.nextId = s.nextId := by
      have h := expireModel_fst_nextId s1 w (s.store w).exp; rw [hEM] at h; exact h
    have hfired : s2.fired = s.fired ++ [FiredEv.mk w (s.store w).exp (s.store w).exp] := by
      have h := expireModel_fst_fired s1 w (s.store w).exp; rw [hEM] at h
      rw [h]
    have hne : ∀ j, j ≠ w → s2.store j = s.store j := by
      intro j hj
      have h := expireModel_fst_store_ne s1 w (s.store w).exp j hj; rw [hEM] at h; exact h
    have hexps : ∀ j, (s2.store j).exp = (s.store j).exp := by
      intro j
      have h := expireModel_fst_store_exp s1 w (s.store w).exp j; rw [hEM] at h; exact h
    refine ⟨htime, hnid, ⟨1, le_rfl, by omega, by simpa using hfired⟩, ?_, ?_, hne, ?_, ?_, ?_⟩
    · rw [hwait]
    · rw [hwait]; exact fun x hx => Or.inr hx
    · intro x hx
      rw [hwait] at hx
      rw [hexps x]
      exact hrestle x hx
    · unfold Sorted
      rw [hwait]
      refine sortedQ_congr (fun j _ => hexps j) ?_
      exact hsort.sublist (hw ▸ List.sublist_cons_self w rest)
    · rw [hwait]; exact hndrest
  | ticker =>
    rcases hEM : expireModel s1 w (s.store w).exp with ⟨s2, dd⟩
    have hdd : dd = some (s.store w).tickD := by
      have h := expireModel_snd_ticker s1 w (s.store w).exp hk
      rw [hEM] at h; exact h
    subst hdd
    have hstep2 : advanceStep s w rest = setExpirer s2 w (s.store w).tickD := by
      rw [hstep, hEM]
    rw [hstep2]
    have hwait : s2.waiters = rest := by
      have h := expireModel_fst_waiters s1 w (s.store w).exp; rw [hEM] at h; exact h
    have htime : s2.time = (s.store w).exp := by
      have h := expireModel_fst_time s1 w (s.store w).exp; rw [hEM] at h; exact h
    have hnid : s2.nextId = s.nextId := by
      have h := expireModel_fst_nextId s1 w (s.store w).exp; rw [hEM] at h; exact h
    have hfired : s2.fired = s.fired ++ [FiredEv.mk w (s.store w).exp (s.store w).exp] := by
      have h := expireModel_fst_fired s1 w (s.store w).exp; rw [hEM] at h
      rw [h]
    have hne : ∀ j, j ≠ w → s2.store j = s.store j := by
      intro j hj
      have h := expireModel_fst_store_ne s1 w (s.store w).exp j hj; rw [hEM] at h; exact h
    have hexps : ∀ j, (s2.store j).exp = (s.store j).exp := by
      intro j
      have h := expireModel_fst_store_exp s1 w (s.store w).exp j; rw [hEM] at h; exact h
    have hblk : s2.blockers = s.blockers := by
      have h := expireModel_fst_blockers s1 w (s.store w).exp; rw [hEM] at h; exact h
    have hsort2 : Sorted s2 := by
      unfold Sorted
      rw [hwait]
      refine sortedQ_congr (fun j _ => hexps j) ?_
      exact hsort.sublist (hw ▸ List.sublist_cons_self w rest)
    have hnd2 : s2.waiters.Nodup := by rw [hwait]; exact hndrest
    have hnotin2 : w ∉ s2.waiters := by rw [hwait]; exact hwnotin
    rcases le_or_lt (s.store w).tickD 0 with htD | htD
    · -- immediate refire, no reinsertion
      rw [setExpirer_nonpos s2 w _ htD]
      have hwait3 : (expireModel s2 w s2.time).1.waiters = rest := by
        rw [expireModel_fst_waiters, hwait]
      have hne3 : ∀ j, j ≠ w → (expireModel s2 w s2.time).1.store j = s.store j := by
        intro j hj
        rw [expireModel_fst_store_ne s2 w s2.time j hj]
        exact hne j hj
      have hexps3 : ∀ j, ((expireModel s2 w s2.time).1.store j).exp = (s.store j).exp := by
        intro j
        rw [expireModel_fst_store_exp]
        exact hexps j
      refine ⟨?_, ?_, ⟨2, by omega, le_rfl, ?_⟩, ?_, ?_, hne3, ?_, ?_, ?_⟩
      · rw [expireModel_fst_time, htime]
      · rw [expireModel_fst_nextId, hnid]
      · rw [expireModel_fst_fired, hfired, htime]
        simp [List.replicate_succ, List.replicate]
      · rw [hwait3]
      · rw [hwait3]; exact fun x hx => Or.inr hx
      · intro x hx
        rw [hwait3] at hx
        rw [hexps3 x]
        exact hrestle x hx
      · unfold Sorted
        rw [hwait3]
        refine sortedQ_congr (fun j _ => hexps3 j) ?_
        exact hsort.sublist (hw ▸ List.sublist_cons_self w rest)
      · rw [hwait3]; exact hndrest
    · -- reinsertion with the fixed period
      obtain ⟨l1, l2, hsplit, hwait4, hl1, hl2, hsort4⟩ :=
        setExpirer_sorted_insert s2 w (s.store w).tickD htD hnotin2 hsort2
      obtain ⟨hpos4, hwaitI, hstore4, htime4, hnid4, hfired4, hblk4⟩ :=
        setExpirer_pos_parts s2 w (s.store w).tickD htD
      rw [hwait] at hsplit
      refine ⟨?_, ?_, ⟨1, le_rfl, by omega, ?_⟩, ?_, ?_, ?_, ?_, hsort4, ?_⟩
      · rw [htime4, htime]
      · rw [hnid4, hnid]
      · rw [hfired4, hfired]
        simp
      · rw [hwait4, hsplit]
        exact List.Sublist.append_left (List.sublist_cons_self w l2) l1
      · intro x hx
        rw [hwait4] at hx
        rcases List.mem_append.mp hx with hx1 | hx2
        · exact Or.inr (hsplit ▸ List.mem_append.mpr (Or.inl hx1))
        · rcases List.mem_cons.mp hx2 with rfl | hx3
          · exact Or.inl rfl
          · exact Or.inr (hsplit ▸ List.mem_append.mpr (Or.inr hx3))
      · intro j hj
        rw [hstore4]
        simp only [updStore_apply, if_neg hj]
        exact hne j hj
      · intro x hx
        rw [hwait4] at hx
        rw [hstore4]
        by_cases hxw : x = w
        · subst hxw
          simp only [updStore_apply, if_pos rfl]
          have : (s.store x).exp ≤ s2.time + (s.store x).tickD := by
            rw [htime]; omega
          simpa using this
        · simp only [updStore_apply, if_neg hxw]
          have hxrest : x ∈ rest := by
            rcases List.mem_append.mp hx with hx1 | hx2
            · exact hsplit ▸ List.mem_append.mpr (Or.inl hx1)
            · rcases List.mem_cons.mp hx2 with rfl | hx3
              · exact absurd rfl hxw
              · exact hsplit ▸ List.mem_append.mpr (Or.inr hx3)
          rw [hexps x]
          exact hrestle x hxrest
      · rw [hwaitI]
        have hperm := insertIdx_perm w (insPos (schedState s2 w (s.store w).tickD) w)
          s2.waiters (by rw [hwait]; exact hwait ▸ hpos4)
        rw [hperm.nodup_iff]
        rw [List.nodup_cons]
        exact ⟨hnotin2, hnd2⟩

/-- What the whole Advance loop does, given the queue invariants: the
firing log grows by a suffix whose events each saw the clock equal to the
instant fired at and name an id of the initial queue; instants along the
suffix never decrease; every initially queued entry due within `e` fires
at its scheduled instant; sortedness, freedom from duplicates and the id
bound survive; and every remaining waiter expires strictly after `e`. -/
lemma advanceLoop_spec (e : Int) : ∀ (fuel : Nat) (s s2 : FC),
    advanceLoop e fuel s = some s2 → Sorted s → s.waiters.Nodup →
    ∃ suf, s2.fired = s.fired ++ suf ∧
      (∀ ev ∈ suf, ev.clockTime = ev.instant ∧ ev.id ∈ s.waiters) ∧
      (∀ lb, (∀ x ∈ s.waiters, lb ≤ (s.store x).exp) → ∀ ev ∈ suf, lb ≤ ev.instant) ∧
      List.Pairwise (fun p q => p.instant ≤ q.instant) suf ∧
      (∀ x ∈ s.waiters, (s.store x).exp ≤ e →
        FiredEv.mk x (s.store x).exp (s.store x).exp ∈ suf) ∧
      Sorted s2 ∧ s2.waiters.Nodup ∧ s2.nextId = s.nextId ∧
      (∀ x ∈ s2.waiters, x ∈ s.waiters) ∧
      (∀ x ∈ s2.waiters, e < (s2.store x).exp) := by
  intro fuel
  induction fuel with
  | zero =>
    intro s s2 hrun hsort hnd
    by_cases hnil : s.waiters = []
    · rw [advanceLoop_eq_nil e 0 s hnil] at hrun
      obtain rfl : s = s2 := by injection hrun
      refine ⟨[], by simp, by simp, by simp, by simp, ?_, hsort, hnd, rfl,
        fun x hx => hx, ?_⟩
      · intro x hx hxe; rw [hnil] at hx; exact absurd hx (List.not_mem_nil x)
      · intro x hx; rw [hnil] at hx; exact absurd hx (List.not_mem_nil x)
    · obtain ⟨w, rest, hw⟩ := List.exists_cons_of_ne_nil hnil
      by_cases hle : (s.store w).exp ≤ e
      · rw [advanceLoop_eq_zero e s w rest hw hle] at hrun
        exact absurd hrun (by simp)
      · rw [advanceLoop_eq_stop e 0 s w rest hw hle] at hrun
        obtain rfl : s = s2 := by injection hrun
        have hall : ∀ x ∈ s.waiters, e < (s.store x).exp := by
          intro x hx
          rw [hw] at hx
          rcases List.mem_cons.mp hx with rfl | hx2
          · omega
          · have h := hsort
            unfold Sorted SortedQ at h
            rw [hw, List.pairwise_cons] at h
            have := h.1 x hx2
            omega
        refine ⟨[], by simp, by simp, by simp, by simp, ?_, hsort, hnd, rfl,
          fun x hx => hx, hall⟩
        intro x hx hxe
        exact absurd hxe (not_le.mpr (hall x hx))
  | succ fuel ih =>
    intro s s2 hrun hsort hnd
    by_cases hnil : s.waiters = []
    · rw [advanceLoop_eq_nil e _ s hnil] at hrun
      obtain rfl : s = s2 := by injection hrun
      refine ⟨[], by simp, by simp, by simp, by simp, ?_, hsort, hnd, rfl,
        fun x hx => hx, ?_⟩
      · intro x hx hxe; rw [hnil] at hx; exact absurd hx (List.not_mem_nil x)
      · intro x hx; rw [hnil] at hx; exact absurd hx (List.not_mem_nil x)
    · obtain ⟨w, rest, hw⟩ := List.exists_cons_of_ne_nil hnil
      by_cases hle : (s.store w).exp ≤ e
      · rw [advanceLoop_eq_succ e fuel s w rest hw hle] at hrun
        obtain ⟨htime1, hnid1, ⟨k, hk1, hk2, hfired1⟩, hsub1, hmem1, hne1, hexpge1,
          hsort1, hnd1⟩ := advanceStep_spec s w rest hw hsort hnd
        obtain ⟨suf, hfired2, hevs2, hlb2, hpw2, hcomp2, hsort2, hnd2, hnid2,
          hsubw2, hfin2⟩ := ih (advanceStep s w rest) s2 hrun hsort1 hnd1
        have hwmem : w ∈ s.waiters := by rw [hw]; exact List.mem_cons_self w rest
        have hwnotin : w ∉ rest := by
          rw [hw] at hnd
          exact (List.nodup_cons.mp hnd).1
        refine ⟨List.replicate k (FiredEv.mk w (s.store w).exp (s.store w).exp) ++ suf,
          ?_, ?_, ?_, ?_, ?_, hsort2, hnd2, by rw [hnid2, hnid1], ?_, hfin2⟩
        · rw [hfired2, hfired1, List.append_assoc]
        · intro ev hev
          rcases List.mem_append.mp hev with h1 | h2
          · obtain ⟨-, rfl⟩ := List.mem_replicate.mp h1
            exact ⟨rfl, hwmem⟩
          · obtain ⟨hct, hid⟩ := hevs2 ev h2
            refine ⟨hct, ?_⟩
            rcases hmem1 ev.id hid with rfl | hidr
            · exact hwmem
            · rw [hw]; exact List.mem_cons_of_mem w hidr
        · intro lb hlb ev hev
          rcases List.mem_append.mp hev with h1 | h2
          · obtain ⟨-, rfl⟩ := List.mem_replicate.mp h1
            exact hlb w hwmem
          · refine hlb2 lb ?_ ev h2
            intro x hx
            exact le_trans (hlb w hwmem) (hexpge1 x hx)
        · rw [List.pairwise_append]
          refine ⟨by simp, hpw2, ?_⟩
          intro p hp q hq
          obtain ⟨-, rfl⟩ := List.mem_replicate.mp hp
          exact hlb2 (s.store w).exp hexpge1 q hq
        · intro x hx hxe
          rw [hw] at hx
          rcases List.mem_cons.mp hx with rfl | hx2
          · refine List.mem_append.mpr (Or.inl ?_)
            exact List.mem_replicate.mpr ⟨by omega, rfl⟩
          · have hxw : x ≠ w := fun hh => hwnotin (hh ▸ hx2)
            have hxmem : x ∈ (advanceStep s w rest).waiters := hsub1.mem hx2
            have hxstore : (advanceStep s w rest).store x = s.store x := hne1 x hxw
            have hm := hcomp2 x hxmem (by rw [hxstore]; exact hxe)
            rw [hxstore] at hm
            exact List.mem_append.mpr (Or.inr hm)
        · intro x hx
          rcases hmem1 x (hsubw2 x hx) with rfl | hxr
          · exact hwmem
          · rw [hw]; exact List.mem_cons_of_mem w hxr
      · rw [advanceLoop_eq_stop e _ s w rest hw hle] at hrun
        obtain rfl : s = s2 := by injection hrun
        have hall : ∀ x ∈ s.waiters, e < (s.store x).exp := by
          intro x hx
          rw [hw] at hx
          rcases List.mem_cons.mp hx with rfl | hx2
          · omega
          · have h := hsort
            unfold Sorted SortedQ at h
            rw [hw, List.pairwise_cons] at h
            have := h.1 x hx2
            omega
        refine ⟨[], by simp, by simp, by simp, by simp, ?_, hsort, hnd, rfl,
          fun x hx => hx, hall⟩
        intro x hx hxe
        exact absurd hxe (not_le.mpr (hall x hx))

/-! ## The blocker registry invariant -/

/-- Every registered blocker still waits for more waiters than the queue
currently holds. -/
def BlockInv (s : FC) : Prop := ∀ c ∈ s.blockers, (s.waiters.length : Int) < c

lemma setExpirer_blockInv (s : FC) (i : Nat) (d : Int) (hbi : BlockInv s) :
    BlockInv (setExpirer s i d) := by
  rcases le_or_lt d 0 with hd | hd
  · rw [setExpirer_nonpos s i d hd]
    intro c hc
    rw [expireModel_fst_waiters]
    rw [expireModel_fst_blockers] at hc
    exact hbi c hc
  · obtain ⟨hpos, hwait, hstore, htime, hnid, hfired, hblock⟩ := setExpirer_pos_parts s i d hd
    intro c hc
    rw [hblock] at hc
    have hlen : (setExpirer s i d).waiters.length = s.waiters.length + 1 := by
      rw [hwait, List.length_insertIdx _ _ hpos]
    rw [hlen]
    have := List.of_mem_filter hc
    have h2 := of_decide_eq_true this
    push_cast
    omega

lemma advanceStep_blockers (s : FC) (w : Nat) (rest : List Nat)
    (hw : s.waiters = w :: rest) (hbi : BlockInv s) :
    BlockInv (advanceStep s w rest) := by
  set s1 : FC := { s with waiters := rest, time := (s.store w).exp } with hs1
  have hbi1 : BlockInv s1 := by
    intro c hc
    have h := hbi c hc
    have : s.waiters.length = rest.length + 1 := by rw [hw]; rfl
    show (rest.length : Int) < c
    omega
  have hstep : advanceStep s w rest =
      (match expireModel s1 w (s.store w).exp with
       | (s2, some dd) => setExpirer s2 w dd
       | (s2, none) => s2) := rfl
  have hbi2 : ∀ s2 : FC, (expireModel s1 w (s.store w).exp).1 = s2 → BlockInv s2 := by
    intro s2 hEM c hc
    rw [← hEM] at hc ⊢
    rw [expireModel_fst_waiters]
    rw [expireModel_fst_blockers] at hc
    exact hbi1 c hc
  rcases hEM : expireModel s1 w (s.store w).exp with ⟨s2, dd⟩
  have hfst : (expireModel s1 w (s.store w).exp).1 = s2 := by rw [hEM]
  cases dd with
  | none =>
    have hred : advanceStep s w rest = s2 := by rw [hstep, hEM]
    rw [hred]
    exact hbi2 s2 hfst
  | some dd =>
    have hred : advanceStep s w rest = setExpirer s2 w dd := by rw [hstep, hEM]
    rw [hred]
    exact setExpirer_blockInv s2 w dd (hbi2 s2 hfst)

lemma advanceLoop_blockers (e : Int) : ∀ (fuel : Nat) (s s2 : FC),
    advanceLoop e fuel s = some s2 → BlockInv s → BlockInv s2 := by
  intro fuel
  induction fuel with
  | zero =>
    intro s s2 hrun hbi
    by_cases hnil : s.waiters = []
    · rw [advanceLoop_eq_nil e 0 s hnil] at hrun
      obtain rfl : s = s2 := by injection hrun
      exact hbi
    · obtain ⟨w, rest, hw⟩ := List.exists_cons_of_ne_nil hnil
      by_cases hle : (s.store w).exp ≤ e
      · rw [advanceLoop_eq_zero e s w rest hw hle] at hrun
        exact absurd hrun (by simp)
      · rw [advanceLoop_eq_stop e 0 s w rest hw hle] at hrun
        obtain rfl : s = s2 := by injection hrun
        exact hbi
  | succ fuel ih =>
    intro s s2 hrun hbi
    by_cases hnil : s.waiters = []
    · rw [advanceLoop_eq_nil e _ s hnil] at hrun
      obtain rfl : s = s2 := by injection hrun
      exact hbi
    · obtain ⟨w, rest, hw⟩ := List.exists_cons_of_ne_nil hnil
      by_cases hle : (s.store w).exp ≤ e
      · rw [advanceLoop_eq_succ e fuel s w rest hw hle] at hrun
        exact ih _ s2 hrun (advanceStep_blockers s w rest hw hbi)
      · rw [advanceLoop_eq_stop e _ s w rest hw hle] at hrun
        obtain rfl : s = s2 := by injection hrun
        exact hbi

/-- Tie-break / order of firings: if `v` stands before `u` in the queue
and both are due within `e`, then the first firing of `v` precedes the
first firing of `u` in the log suffix the loop appends. -/
lemma advanceLoop_order (e : Int) : ∀ (fuel : Nat) (s s2 : FC),
    advanceLoop e fuel s = some s2 → Sorted s → s.waiters.Nodup →
    ∀ v u, List.Sublist [v, u] s.waiters →
      (s.store v).exp ≤ e → (s.store u).exp ≤ e →
      ((s2.fired.drop s.fired.length).map FiredEv.id).indexOf v
        < ((s2.fired.drop s.fired.length).map FiredEv.id).indexOf u := by
  intro fuel
  induction fuel with
  | zero =>
    intro s s2 hrun hsort hnd v u hsub hv hu
    by_cases hnil : s.waiters = []
    · rw [hnil] at hsub
      have := List.sublist_nil.mp hsub
      simp at this
    · obtain ⟨w, rest, hw⟩ := List.exists_cons_of_ne_nil hnil
      by_cases hle : (s.store w).exp ≤ e
      · rw [advanceLoop_eq_zero e s w rest hw hle] at hrun
        exact absurd hrun (by simp)
      · exfalso
        have hvmem : v ∈ s.waiters := hsub.mem (by simp)
        rw [hw] at hvmem
        rcases List.mem_cons.mp hvmem with rfl | hv2
        · omega
        · have h := hsort
          unfold Sorted SortedQ at h
          rw [hw, List.pairwise_cons] at h
          have := h.1 v hv2
          omega
  | succ fuel ih =>
    intro s s2 hrun hsort hnd v u hsub hv hu
    by_cases hnil : s.waiters = []
    · rw [hnil] at hsub
      have := List.sublist_nil.mp hsub
      simp at this
    · obtain ⟨w, rest, hw⟩ := List.exists_cons_of_ne_nil hnil
      by_cases hle : (s.store w).exp ≤ e
      · rw [advanceLoop_eq_succ e fuel s w rest hw hle] at hrun
        obtain ⟨htime1, hnid1, ⟨k, hk1, hk2, hfired1⟩, hsub1, hmem1, hne1, hexpge1,
          hsort1, hnd1⟩ := advanceStep_spec s w rest hw hsort hnd
        obtain ⟨sufR, hfiredR, -, -, -, -, -, -, -, -⟩ :=
          advanceLoop_spec e fuel (advanceStep s w rest) s2 hrun hsort1 hnd1
        have hwnotin : w ∉ rest := by
          rw [hw] at hnd
          exact (List.nodup_cons.mp hnd).1
        have hdropS : s2.fired.drop s.fired.length
            = List.replicate k (FiredEv.mk w (s.store w).exp (s.store w).exp) ++ sufR := by
          rw [hfiredR, hfired1, List.append_assoc, List.drop_left]
        have hdropR : s2.fired.drop (advanceStep s w rest).fired.length = sufR := by
          rw [hfiredR, List.drop_left]
        have hmapS : (s2.fired.drop s.fired.length).map FiredEv.id
            = List.replicate k w ++ (sufR.map FiredEv.id) := by
          rw [hdropS, List.map_append, List.map_replicate]
        rw [hw] at hsub
        cases hsub with
        | cons _ hsub2 =>
          -- both v and u stand in rest
          have hvrest : v ∈ rest := hsub2.mem (by simp)
          have hurest : u ∈ rest := hsub2.mem (by simp)
          have hvw : v ≠ w := fun hh => hwnotin (hh ▸ hvrest)
          have huw : u ≠ w := fun hh => hwnotin (hh ▸ hurest)
          have hsub3 : List.Sublist [v, u] (advanceStep s w rest).waiters :=
            hsub2.trans hsub1
          have hih := ih (advanceStep s w rest) s2 hrun hsort1 hnd1 v u hsub3
            (by rw [hne1 v hvw]; exact hv) (by rw [hne1 u huw]; exact hu)
          rw [hdropR] at hih
          rw [hmapS]
          rw [List.indexOf_append_of_not_mem (by simp [List.mem_replicate, hvw]),
            List.indexOf_append_of_not_mem (by simp [List.mem_replicate, huw])]
          simpa using hih
        | cons₂ _ hsub2 =>
          -- v is the popped front, u stands in rest
          have hurest : u ∈ rest := hsub2.mem (by simp)
          have huw : u ≠ v := fun hh => hwnotin (hh ▸ hurest)
          rw [hmapS]
          obtain ⟨k2, rfl⟩ : ∃ k2, k = k2 + 1 := ⟨k - 1, by omega⟩
          rw [List.replicate_succ, List.cons_append, List.indexOf_cons_self]
          rw [show ((v :: (List.replicate k2 v ++ sufR.map FiredEv.id)).indexOf u)
              = ((List.replicate (k2 + 1) v ++ sufR.map FiredEv.id).indexOf u) by
            rw [List.replicate_succ, List.cons_append]]
          rw [List.indexOf_append_of_not_mem (by simp [List.mem_replicate, huw])]
          simp
      · exfalso
        have hvmem : v ∈ s.waiters := hsub.mem (by simp)
        rw [hw] at hvmem
        rcases List.mem_cons.mp hvmem with rfl | hv2
        · omega
        · have h := hsort
          unfold Sorted SortedQ at h
          rw [hw, List.pairwise_cons] at h
          have := h.1 v hv2
          omega

/-! ## Invariant preservation by the public operations -/

lemma Inv_mkFC (t : Int) : Inv (mkFC t) := by
  refine ⟨?_, ?_, ?_, ?_⟩ <;> simp [mkFC, Sorted, SortedQ]

lemma stopExpirer_Inv (s : FC) (i : Nat) (hinv : Inv s) : Inv (stopExpirer s i).1 := by
  obtain ⟨hsort, hnd, hbd, htm⟩ := hinv
  by_cases h : i ∈ s.waiters
  · rw [stopExpirer_mem s i h]
    refine ⟨?_, ?_, ?_, ?_⟩
    · exact hsort.sublist (List.erase_sublist i s.waiters)
    · exact hnd.sublist (List.erase_sublist i s.waiters)
    · intro j hj
      exact hbd j (List.mem_of_mem_erase hj)
    · intro j hj
      exact htm j (List.mem_of_mem_erase hj)
  · rw [stopExpirer_not_mem s i h]
    exact ⟨hsort, hnd, hbd, htm⟩

lemma setExpirer_Inv (s : FC) (i : Nat) (d : Int) (hnotin : i ∉ s.waiters)
    (hid : i < s.nextId) (hinv : Inv s) : Inv (setExpirer s i d) := by
  obtain ⟨hsort, hnd, hbd, htm⟩ := hinv
  rcases le_or_lt d 0 with hd | hd
  · rw [setExpirer_nonpos s i d hd]
    refine ⟨?_, ?_, ?_, ?_⟩
    · unfold Sorted
      rw [expireModel_fst_waiters]
      exact sortedQ_congr (fun j _ => expireModel_fst_store_exp s i s.time j) hsort
    · rw [expireModel_fst_waiters]; exact hnd
    · intro j hj
      rw [expireModel_fst_waiters] at hj
      rw [expireModel_fst_nextId]
      exact hbd j hj
    · intro j hj
      rw [expireModel_fst_waiters] at hj
      rw [expireModel_fst_time, expireModel_fst_store_exp]
      exact htm j hj
  · obtain ⟨l1, l2, hsplit, hwq, hl1, hl2, hsorted2⟩ :=
      setExpirer_sorted_insert s i d hd hnotin hsort
    obtain ⟨hpos, hwait, hstore, htime, hnid, hfired, hblock⟩ := setExpirer_pos_parts s i d hd
    have hperm := insertIdx_perm i (insPos (schedState s i d) i) s.waiters hpos
    refine ⟨hsorted2, ?_, ?_, ?_⟩
    · rw [hwait, hperm.nodup_iff, List.nodup_cons]
      exact ⟨hnotin, hnd⟩
    · intro j hj
      rw [hwait] at hj
      rw [hnid]
      rcases List.mem_cons.mp (hperm.mem_iff.mp hj) with rfl | hjw
      · exact hid
      · exact hbd j hjw
    · intro j hj
      rw [htime, hstore]
      rw [hwait] at hj
      rcases List.mem_cons.mp (hperm.mem_iff.mp hj) with rfl | hjw
      · simp only [updStore_apply, if_pos rfl]
        show s.time < s.time + d
        omega
      · have hji : j ≠ i := fun hh => hnotin (hh ▸ hjw)
        simp only [updStore_apply, if_neg hji]
        exact htm j hjw

lemma nextId_notin (s : FC) (hinv : Inv s) : s.nextId ∉ s.waiters := by
  intro h
  exact absurd (hinv.2.2.1 s.nextId h) (lt_irrefl s.nextId)

lemma newTimerOp_Inv (s : FC) (d : Int) (af : Bool) (hinv : Inv s) :
    Inv (newTimerOp s d af).1 := by
  obtain ⟨hsort, hnd, hbd, htm⟩ := hinv
  have hnotin := nextId_notin s ⟨hsort, hnd, hbd, htm⟩
  set s1 : FC := { s with
    nextId := s.nextId + 1
    store := updStore s.store s.nextId (ExpData.mk (.timer af) 0 0 none 0) } with hs1
  have hinv1 : Inv s1 := by
    refine ⟨?_, hnd, ?_, ?_⟩
    · exact sortedQ_updStore_notin hnotin hsort
    · intro j hj
      have := hbd j hj
      show j < s.nextId + 1
      omega
    · intro j hj
      have hji : j ≠ s.nextId := fun hh => hnotin (hh ▸ hj)
      show s.time < (updStore s.store s.nextId _ j).exp
      simp only [updStore_apply, if_neg hji]
      exact htm j hj
  exact setExpirer_Inv s1 s.nextId d hnotin (by show s.nextId < s.nextId + 1; omega) hinv1

lemma newTickerOp_Inv (s : FC) (d : Int) (s2 : FC) (i : Nat) (hinv : Inv s)
    (h : newTickerOp s d = some (s2, i)) : Inv s2 := by
  obtain ⟨hsort, hnd, hbd, htm⟩ := hinv
  have hnotin := nextId_notin s ⟨hsort, hnd, hbd, htm⟩
  by_cases hd : d ≤ 0
  · rw [newTickerOp, if_pos hd] at h
    exact absurd h (by simp)
  · rw [newTickerOp, if_neg hd] at h
    obtain ⟨h2, -⟩ : setExpirer { s with
        nextId := s.nextId + 1
        store := updStore s.store s.nextId (ExpData.mk .ticker 0 d none 0) } s.nextId d = s2
        ∧ s.nextId = i := by
      constructor
      · injection h with h3
        injection h3 with h4 h5
      · injection h with h3
        injection h3 with h4 h5
    rw [← h2]
    set s1 : FC := { s with
      nextId := s.nextId + 1
      store := updStore s.store s.nextId (ExpData.mk .ticker 0 d none 0) } with hs1
    have hinv1 : Inv s1 := by
      refine ⟨?_, hnd, ?_, ?_⟩
      · exact sortedQ_updStore_notin hnotin hsort
      · intro j hj
        have := hbd j hj
        show j < s.nextId + 1
        omega
      · intro j hj
        have hji : j ≠ s.nextId := fun hh => hnotin (hh ▸ hj)
        show s.time < (updStore s.store s.nextId _ j).exp
        simp only [updStore_apply, if_neg hji]
        exact htm j hj
    exact setExpirer_Inv s1 s.nextId d hnotin (by show s.nextId < s.nextId + 1; omega) hinv1

lemma timerReset_Inv (s : FC) (i : Nat) (d : Int) (hid : i < s.nextId) (hinv : Inv s) :
    Inv (timerReset s i d).1 := by
  have hstop := stopExpirer_Inv s i hinv
  have hsame : (stopExpirer s i).1.nextId = s.nextId := by
    by_cases h : i ∈ s.waiters
    · rw [stopExpirer_mem s i h]
    · rw [stopExpirer_not_mem s i h]
  have hnotin : i ∉ (stopExpirer s i).1.waiters := by
    by_cases h : i ∈ s.waiters
    · rw [stopExpirer_mem s i h]
      intro hmem
      exact absurd ((hinv.2.1.mem_erase_iff.mp hmem).1) (by simp)
    · rw [stopExpirer_not_mem s i h]
      exact h
  show Inv (setExpirer (stopExpirer s i).1 i d)
  exact setExpirer_Inv _ i d hnotin (hsame ▸ hid) hstop

lemma newBlocker_Inv (s : FC) (n : Int) (hinv : Inv s) : Inv (newBlocker s n).1 := by
  by_cases h : (s.waiters.length : Int) < n
  · rw [newBlocker, if_pos h]
    exact hinv
  · rw [newBlocker, if_neg h]
    exact hinv

lemma Advance_Inv (s : FC) (d : Int) (s2 : FC) (hrun : Advance s d = some s2)
    (hinv : Inv s) : Inv s2 := by
  obtain ⟨hsort, hnd, hbd, htm⟩ := hinv
  rw [Advance_eq] at hrun
  obtain ⟨s1, h1, h2⟩ := Option.map_eq_some'.mp hrun
  obtain ⟨suf, hfired, hevs, hlb, hpw, hcomp, hsort1, hnd1, hnid1, hsubw, hfin⟩ :=
    advanceLoop_spec (s.time + d) _ s s1 h1 hsort hnd
  subst h2
  refine ⟨hsort1, hnd1, ?_, ?_⟩
  · intro j hj
    show j < s1.nextId
    rw [hnid1]
    exact hbd j (hsubw j hj)
  · intro j hj
    exact hfin j hj

/-! ## Ticker periodicity -/

/-- The test-harness action of receiving (draining) the pending tick from
expirer `i`\u2019s channel. -/
def drainChan (s : FC) (i : Nat) : FC :=
  { s with store := updStore s.store i { s.store i with chan := none } }

/-- Canonical single-ticker state: the queue holds exactly ticker `i`,
scheduled one period `p` from the current time, channel drained, and `i`
has fired `c` times so far. -/
def tickerP (s : FC) (i : Nat) (p : Int) (c : Nat) : Prop :=
  s.waiters = [i] ∧ s.store i = ExpData.mk .ticker (s.time + p) p none 0 ∧
    (s.fired.filter (fun ev => ev.id == i)).length = c

/-- One test cycle: advance by exactly one period, then drain the tick. -/
def tickCycle (i : Nat) (p : Int) (s : FC) : FC :=
  drainChan ((Advance s p).getD s) i

lemma expireModel_ticker_eq (s : FC) (i : Nat) (now : Int) (x0 p0 : Int)
    (ch : Option Int) (sp : Nat)
    (hst : s.store i = ExpData.mk .ticker x0 p0 ch sp) :
    expireModel s i now = ({ s with
      fired := s.fired ++ [FiredEv.mk i now s.time]
      store := updStore s.store i (ExpData.mk .ticker x0 p0 (trySend ch now) sp) },
      some p0) := by
  have hk : (s.store i).kind = .ticker := by rw [hst]
  simp [expireModel, hk, hst]

/-- One cycle of a canonical ticker state: `Advance p` fires the ticker
exactly once, at the scheduled instant, reschedules it at the previously
scheduled instant plus `p` (not at delivery time), and lands the clock on
`time + p`; draining restores the canonical state with one more firing. -/
lemma tick_cycle (s : FC) (i : Nat) (p : Int) (c : Nat) (hp : 0 < p)
    (hP : tickerP s i p c) :
    ∃ s2, Advance s p = some s2 ∧
      s2.time = s.time + p ∧
      s2.waiters = [i] ∧
      s2.store i = ExpData.mk .ticker (s.time + p + p) p (some (s.time + p)) 0 ∧
      s2.fired = s.fired ++ [FiredEv.mk i (s.time + p) (s.time + p)] ∧
      s2.nextId = s.nextId ∧
      tickerP (tickCycle i p s) i p (c + 1) ∧
      (tickCycle i p s).time = s.time + p := by
  obtain ⟨hwq, hstorei, hcnt⟩ := hP
  have hexp : (s.store i).exp = s.time + p := by rw [hstorei]
  have hkind : (s.store i).kind = .ticker := by rw [hstorei]
  have htd : (s.store i).tickD = p := by rw [hstorei]
  -- the measure is exactly one
  have hw1 : weight (s.time + p) (s.store i) = 1 := by
    rw [weight_ticker_pos _ _ hkind (by omega), if_neg (by rw [hexp]; omega), hexp, htd]
    simp
  have hm : advMeasure (s.time + p) s = 1 := by
    rw [advMeasure_cons (s.time + p) s i [] hwq]
    simp [hw1]
  -- the single loop iteration
  set s1 : FC := { s with waiters := [], time := (s.store i).exp } with hs1
  have hs1store : s1.store i = ExpData.mk .ticker (s.time + p) p none 0 := hstorei
  have hEM := expireModel_ticker_eq s1 i ((s.store i).exp) (s.time + p) p none 0 hs1store
  set s2m : FC := { s1 with
    fired := s1.fired ++ [FiredEv.mk i ((s.store i).exp) s1.time]
    store := updStore s1.store i
      (ExpData.mk .ticker (s.time + p) p (trySend none ((s.store i).exp)) 0) } with hs2m
  have hstep : advanceStep s i [] = setExpirer s2m i p := by
    have h0 : advanceStep s i [] =
        (match expireModel s1 i ((s.store i).exp) with
         | (s2, some dd) => setExpirer s2 i dd
         | (s2, none) => s2) := rfl
    rw [h0, hEM]
  -- setExpirer re-inserts into the empty queue
  obtain ⟨hpos, hwait0, hstore, htime, hnid, hfired, hblock⟩ := setExpirer_pos_parts s2m i p hp
  have hwlen : s2m.waiters.length = 0 := rfl
  have hz : insPos (schedState s2m i p) i = 0 := by omega
  have hwait : (setExpirer s2m i p).waiters = [i] := by
    rw [hwait0, hz]
    rfl
  have h2 : s2m.time = s.time + p := hexp
  have hsm_i : s2m.store i = ExpData.mk .ticker (s.time + p) p (some (s.time + p)) 0 := by
    rw [hs2m]
    show updStore s1.store i
        (ExpData.mk .ticker (s.time + p) p (trySend none ((s.store i).exp)) 0) i = _
    rw [updStore_apply, if_pos rfl, hexp]
    rfl
  have hfinal_i : (setExpirer s2m i p).store i
      = ExpData.mk .ticker (s.time + p + p) p (some (s.time + p)) 0 := by
    rw [hstore, updStore_apply, if_pos rfl, hsm_i, h2]
  have hsf : (setExpirer s2m i p).fired
      = s.fired ++ [FiredEv.mk i (s.time + p) (s.time + p)] := by
    rw [hfired, hs2m]
    show s1.fired ++ [FiredEv.mk i ((s.store i).exp) s1.time] = _
    have ha : s1.time = (s.store i).exp := rfl
    have hb : s1.fired = s.fired := rfl
    rw [ha, hb, hexp]
  have hrun : advanceLoop (s.time + p) (advMeasure (s.time + p) s) s
      = some (setExpirer s2m i p) := by
    rw [hm, advanceLoop_eq_succ (s.time + p) 0 s i [] hwq (by rw [hexp]), hstep]
    refine advanceLoop_eq_stop (s.time + p) 0 _ i [] hwait ?_
    rw [hfinal_i]
    show ¬ s.time + p + p ≤ s.time + p
    omega
  have hadv : Advance s p = some { setExpirer s2m i p with time := s.time + p } := by
    rw [Advance_eq, hrun]
    rfl
  refine ⟨_, hadv, rfl, hwait, hfinal_i, hsf, ?_, ?_, ?_⟩
  · show ((setExpirer s2m i p).nextId) = s.nextId
    rw [hnid]
  · -- the drained state is canonical again with one more firing
    unfold tickCycle
    rw [hadv]
    show tickerP (drainChan { setExpirer s2m i p with time := s.time + p } i) i p (c + 1)
    refine ⟨hwait, ?_, ?_⟩
    · show updStore _ i _ i = _
      rw [updStore_apply, if_pos rfl]
      show ExpData.mk ((setExpirer s2m i p).store i).kind ((setExpirer s2m i p).store i).exp
          ((setExpirer s2m i p).store i).tickD none ((setExpirer s2m i p).store i).spawned = _
      rw [hfinal_i]
      rfl
    · show ((setExpirer s2m i p).fired.filter (fun ev => ev.id == i)).length = c + 1
      rw [hsf, List.filter_append]
      simp [hcnt]
  · unfold tickCycle
    rw [hadv]
    rfl

lemma expireModel_timerF_eq (s : FC) (i : Nat) (now : Int) (x0 p0 : Int)
    (ch : Option Int) (sp : Nat)
    (hst : s.store i = ExpData.mk (.timer false) x0 p0 ch sp) :
    expireModel s i now = ({ s with
      fired := s.fired ++ [FiredEv.mk i now s.time]
      store := updStore s.store i (ExpData.mk (.timer false) x0 p0 (trySend ch now) sp) },
      none) := by
  have hk : (s.store i).kind = .timer false := by rw [hst]
  simp [expireModel, hk, hst]

lemma expireModel_timerT_eq (s : FC) (i : Nat) (now : Int) (x0 p0 : Int)
    (ch : Option Int) (sp : Nat)
    (hst : s.store i = ExpData.mk (.timer true) x0 p0 ch sp) :
    expireModel s i now = ({ s with
      fired := s.fired ++ [FiredEv.mk i now s.time]
      store := updStore s.store i (ExpData.mk (.timer true) x0 p0 ch (sp + 1)) },
      none) := by
  have hk : (s.store i).kind = .timer true := by rw [hst]
  simp [expireModel, hk, hst]

/-! ## Example states used by the concrete theorems -/

/-- A fake clock at time 0 holding one ticker (id 0) of period 10. -/
def exTicker : FC := ((newTickerOp (mkFC 0) 10).getD (mkFC 0, 0)).1

/-- A fake clock at time 0 holding the timer 0 (duration 30) and the
ticker 1 (period 100). -/
def exMix : FC := (((newTickerOp ((newTimerOp (mkFC 0) 30 false).1) 100).getD
  ((newTimerOp (mkFC 0) 30 false).1, 0))).1

/-- `exMix` after the buggy `fakeTicker.Reset(20)` on the registered
ticker 1, then `Advance(25)` and stopping timer 0: a state reachable by
public operations alone. -/
def exBroken : FC :=
  let s3 := tickerReset exMix 1 20
  let s4 := (Advance s3 25).getD s3
  (stopOp s4 0).1

/-- A fake clock at time 0 holding timer 0 at instant 3 and timers 1 and 2
both at instant 5 (registered in that order). -/
def exTriple : FC :=
  (newTimerOp ((newTimerOp ((newTimerOp (mkFC 0) 3 false).1) 5 false).1) 5 false).1

/-- A fake clock at time 0 holding one ticker (id 0) of period 5. -/
def exTick5 : FC := ((newTickerOp (mkFC 0) 5).getD (mkFC 0, 0)).1

/-- A fake clock whose timer 0 has fired (channel still holds instant 5),
was rescheduled to instant 10 by `Reset(3)` at time 7, and is active. -/
def exUndrained : FC :=
  let sa := (newTimerOp (mkFC 0) 5 false).1
  let sb := (Advance sa 7).getD sa
  (timerReset sb 0 3).1

/-! ## C1 -/

/-- C1: evaluating `fakeTicker.Reset` with duration 0 on a fake clock
holding one registered ticker of period 10: the call returns normally (no
panic path exists in the model because none exists in the code), fires
the ticker immediately into its channel at the current time, sets the
period field to 0, and leaves the stale queue entry registered. -/
theorem c1_ticker_reset_nonpositive_eval :
    (tickerReset exTicker 0 0).waiters = [0] ∧
    ((tickerReset exTicker 0 0).store 0).chan = some 0 ∧
    ((tickerReset exTicker 0 0).store 0).tickD = 0 ∧
    (tickerReset exTicker 0 0).fired = [FiredEv.mk 0 0 0] := by
  decide

/-! ## C2 -/

/-- C2: evaluating `fakeTicker.Reset(7)` on a fake clock holding the
ticker 0 (period 10) exactly once: after the reset the ticker occurs in
the waiter queue twice — the reset inserted a second entry without
removing the first. -/
theorem c2_ticker_reset_duplicates_eval :
    exTicker.waiters.count 0 = 1 ∧
    (tickerReset exTicker 0 7).waiters.count 0 = 2 := by
  decide

/-! ## C3 -/

/-- C3: for every state and every non-negative duration `d`, `Advance d`
returns (the loop terminates) and the resulting virtual time is exactly
the pre-call time plus `d`, no matter how many expirers fired. -/
theorem c3_advance_exact_landing (s : FC) (d : Int) (hd : 0 ≤ d) :
    ∃ s2, Advance s d = some s2 ∧ s2.time = s.time + d := by
  obtain ⟨s1, s2, h1, h2, h3⟩ := Advance_isSome s d
  exact ⟨s2, h2, by rw [h3]⟩

/-- C3 witness: a clock at time 0 with a 5-unit timer, advanced by 7. -/
theorem c3_witness :
    (0 : Int) ≤ 7 ∧ ∃ s2, Advance ((newTimerOp (mkFC 0) 5 false).1) 7 = some s2 ∧
      s2.time = ((newTimerOp (mkFC 0) 5 false).1).time + 7 :=
  ⟨by norm_num, c3_advance_exact_landing ((newTimerOp (mkFC 0) 5 false).1) 7 (by norm_num)⟩

/-! ## C4 -/

/-- C4: within one `Advance d` on a sorted, duplicate-free queue, the
firing log grows by a suffix in which (i) every initially queued expirer
due at or before `time + d` fires at its scheduled instant, (ii) firing
instants never decrease, (iii) every firing saw the clock set exactly to
the instant it fired at, and (iv) of two due entries the one standing
earlier in the queue (by stable insertion: the one registered first among
equal instants) fires first. -/
theorem c4_advance_firing_order (s : FC) (d : Int)
    (hsort : Sorted s) (hnd : s.waiters.Nodup) :
    ∃ s2 suf, Advance s d = some s2 ∧ s2.fired = s.fired ++ suf ∧
      (∀ x ∈ s.waiters, (s.store x).exp ≤ s.time + d →
        FiredEv.mk x (s.store x).exp (s.store x).exp ∈ suf) ∧
      List.Pairwise (fun p q => p.instant ≤ q.instant) suf ∧
      (∀ ev ∈ suf, ev.clockTime = ev.instant) ∧
      (∀ v u, List.Sublist [v, u] s.waiters → (s.store v).exp ≤ s.time + d →
        (s.store u).exp ≤ s.time + d →
        (suf.map FiredEv.id).indexOf v < (suf.map FiredEv.id).indexOf u) := by
  obtain ⟨s1, s2, h1, h2, h3⟩ := Advance_isSome s d
  obtain ⟨suf, hfired, hevs, hlb, hpw, hcomp, hsort1, hnd1, hnid1, hsubw, hfin⟩ :=
    advanceLoop_spec (s.time + d) _ s s1 h1 hsort hnd
  have h2fired : s2.fired = s1.fired := by rw [h3]
  refine ⟨s2, suf, h2, by rw [h2fired, hfired], hcomp, hpw,
    fun ev hev => (hevs ev hev).1, ?_⟩
  intro v u hsub hv hu
  have horder := advanceLoop_order (s.time + d) _ s s1 h1 hsort hnd v u hsub hv hu
  have hdrop : s1.fired.drop s.fired.length = suf := by
    rw [hfired, List.drop_left]
  rw [hdrop] at horder
  exact horder

/-- C4 witness: a clock at time 0 with timer 0 due at 3 and timers 1, 2
both due at 5, advanced by 6. -/
theorem c4_witness :
    Sorted exTriple ∧ exTriple.waiters.Nodup ∧
    (∃ s2 suf, Advance exTriple 6 = some s2 ∧ s2.fired = exTriple.fired ++ suf ∧
      (∀ x ∈ exTriple.waiters, (exTriple.store x).exp ≤ exTriple.time + 6 →
        FiredEv.mk x (exTriple.store x).exp (exTriple.store x).exp ∈ suf) ∧
      List.Pairwise (fun p q => p.instant ≤ q.instant) suf ∧
      (∀ ev ∈ suf, ev.clockTime = ev.instant) ∧
      (∀ v u, List.Sublist [v, u] exTriple.waiters →
        (exTriple.store v).exp ≤ exTriple.time + 6 →
        (exTriple.store u).exp ≤ exTriple.time + 6 →
        (suf.map FiredEv.id).indexOf v < (suf.map FiredEv.id).indexOf u)) :=
  ⟨by decide, by decide, c4_advance_firing_order exTriple 6 (by decide) (by decide)⟩

/-! ## C5 -/

/-- C5: (1) registering a blocker for `n` waiters when the queue already
holds at least `n` succeeds immediately, adding nothing; (2) otherwise a
blocker with required count `n` is appended; (3) a positive-duration
insertion into the waiter queue grows it by one and removes (notifies)
exactly the blockers whose count is at most the new length; (4) every
registered blocker requires strictly more waiters than currently queued,
and this is preserved by blocker registration, stop, scheduling, and
Advance — so a blocker for `n` is only ever notified by an insertion that
first brings the queue length up to `n`, never while fewer than `n`
waiters are registered. -/
theorem c5_blocker_semantics :
    (∀ (s : FC) (n : Int), n ≤ (s.waiters.length : Int) → newBlocker s n = (s, false)) ∧
    (∀ (s : FC) (n : Int), (s.waiters.length : Int) < n →
      newBlocker s n = ({ s with blockers := s.blockers ++ [n] }, true)) ∧
    (∀ (s : FC) (i : Nat) (d : Int), 0 < d →
      (setExpirer s i d).waiters.length = s.waiters.length + 1 ∧
      (setExpirer s i d).blockers
        = s.blockers.filter (fun c => ((s.waiters.length : Int) + 1) < c)) ∧
    (∀ (s : FC) (n : Int), BlockInv s → BlockInv (newBlocker s n).1) ∧
    (∀ (s : FC) (i : Nat), BlockInv s → BlockInv (stopExpirer s i).1) ∧
    (∀ (s : FC) (i : Nat) (d : Int), BlockInv s → BlockInv (setExpirer s i d)) ∧
    (∀ (s s2 : FC) (d : Int), BlockInv s → Advance s d = some s2 → BlockInv s2) := by
  refine ⟨?_, ?_, ?_, ?_, ?_, setExpirer_blockInv, ?_⟩
  · intro s n h
    rw [newBlocker, if_neg (not_lt.mpr h)]
  · intro s n h
    rw [newBlocker, if_pos h]
  · intro s i d hd
    obtain ⟨hpos, hwait, hstore, htime, hnid, hfired, hblock⟩ := setExpirer_pos_parts s i d hd
    refine ⟨?_, hblock⟩
    rw [hwait, List.length_insertIdx _ _ hpos]
  · intro s n hbi
    by_cases h : (s.waiters.length : Int) < n
    · rw [newBlocker, if_pos h]
      intro c hc
      rcases List.mem_append.mp hc with hc1 | hc2
      · exact hbi c hc1
      · rw [List.mem_singleton.mp hc2]
        exact h
    · rw [newBlocker, if_neg h]
      exact hbi
  · intro s i hbi
    by_cases h : i ∈ s.waiters
    · rw [stopExpirer_mem s i h]
      intro c hc
      have h1 := hbi c hc
      have h2 : (s.waiters.erase i).length = s.waiters.length - 1 :=
        List.length_erase_of_mem h
      have h3 : 1 ≤ s.waiters.length := List.length_pos_of_mem h
      show ((s.waiters.erase i).length : Int) < c
      rw [h2]
      push_cast [h3]
      omega
    · rw [stopExpirer_not_mem s i h]
      exact hbi
  · intro s s2 d hbi hrun
    rw [Advance_eq] at hrun
    obtain ⟨s1, h1, h2⟩ := Option.map_eq_some'.mp hrun
    have hb1 := advanceLoop_blockers (s.time + d) _ s s1 h1 hbi
    subst h2
    exact hb1

/-- C5 witness: on an empty clock, registering a blocker for two waiters
really registers it, and the first insertion (one waiter) does not notify
it while the second (two waiters) does. -/
theorem c5_witness :
    newBlocker (mkFC 0) 2 = ({ mkFC 0 with blockers := [2] }, true) ∧
    ((newTimerOp ((newBlocker (mkFC 0) 2).1) 5 false).1.blockers = [2] ∧
      (newTimerOp (newTimerOp ((newBlocker (mkFC 0) 2).1) 5 false).1 9 false).1.blockers
        = []) := by
  constructor
  · exact c5_blocker_semantics.2.1 (mkFC 0) 2 (by decide)
  · constructor
    · decide
    · decide

/-! ## C6 -/

/-- C6 counterexample: timer 0 of `exUndrained` is active (queue length
one, channel still holding the undelivered instant 5) at time 7; calling
`Reset(0)` fires it immediately but the waiter count drops from one to
zero (the stop step removed the active entry) and the channel still holds
5, not the current time 7 — against the claim that the waiter count is
unchanged and the channel holds the current time. -/
theorem c6_counterexample :
    exUndrained.waiters.length = 1 ∧
    exUndrained.time = 7 ∧
    (timerReset exUndrained 0 0).1.waiters.length = 0 ∧
    ((timerReset exUndrained 0 0).1.store 0).chan = some 5 ∧
    (timerReset exUndrained 0 0).1.time = 7 := by
  decide

/-- C6 amended: a one-shot timer scheduled with `d ≤ 0` fires immediately
against the current virtual time and is never inserted into the queue.
For a fresh `NewTimer` the channel then holds the current time and the
waiter queue and clock are untouched; for a fresh `AfterFunc` the
callback is spawned once instead.  For `Reset(d ≤ 0)` the firing sends
the current time only if the single-slot channel is free (`trySend`), and
the preceding stop step removes the timer\u2019s queue entry when it was
active, so the waiter count drops by one exactly in that case. -/
theorem c6_nonpositive_fires_immediately :
    (∀ (s : FC) (d : Int), d ≤ 0 →
      (newTimerOp s d false).1.waiters = s.waiters ∧
      ((newTimerOp s d false).1.store s.nextId).chan = some s.time ∧
      (newTimerOp s d false).1.time = s.time ∧
      (newTimerOp s d false).1.fired = s.fired ++ [FiredEv.mk s.nextId s.time s.time]) ∧
    (∀ (s : FC) (d : Int), d ≤ 0 →
      (newTimerOp s d true).1.waiters = s.waiters ∧
      ((newTimerOp s d true).1.store s.nextId).spawned = 1 ∧
      ((newTimerOp s d true).1.store s.nextId).chan = none ∧
      (newTimerOp s d true).1.time = s.time) ∧
    (∀ (s : FC) (i : Nat) (d : Int), d ≤ 0 → (s.store i).kind = .timer false →
      (timerReset s i d).1.waiters
        = (if i ∈ s.waiters then s.waiters.erase i else s.waiters) ∧
      ((timerReset s i d).1.store i).chan = trySend (s.store i).chan s.time ∧
      (timerReset s i d).1.time = s.time ∧
      (timerReset s i d).1.fired = s.fired ++ [FiredEv.mk i s.time s.time]) := by
  refine ⟨?_, ?_, ?_⟩
  · intro s d hd
    set s1 : FC := { s with
      nextId := s.nextId + 1
      store := updStore s.store s.nextId (ExpData.mk (.timer false) 0 0 none 0) } with hs1
    have hst : s1.store s.nextId = ExpData.mk (.timer false) 0 0 none 0 := by
      rw [hs1]
      show updStore s.store s.nextId _ s.nextId = _
      rw [updStore_apply, if_pos rfl]
    show (setExpirer s1 s.nextId d).waiters = s.waiters ∧
      ((setExpirer s1 s.nextId d).store s.nextId).chan = some s.time ∧
      (setExpirer s1 s.nextId d).time = s.time ∧
      (setExpirer s1 s.nextId d).fired = _
    rw [setExpirer_nonpos _ _ _ hd]
    have hEM := expireModel_timerF_eq s1 s.nextId s1.time 0 0 none 0 hst
    have hEM1 := congrArg Prod.fst hEM
    rw [hEM1]
    refine ⟨rfl, ?_, rfl, rfl⟩
    show (updStore s1.store s.nextId _ s.nextId).chan = _
    rw [updStore_apply, if_pos rfl]
    rfl
  · intro s d hd
    set s1 : FC := { s with
      nextId := s.nextId + 1
      store := updStore s.store s.nextId (ExpData.mk (.timer true) 0 0 none 0) } with hs1
    have hst : s1.store s.nextId = ExpData.mk (.timer true) 0 0 none 0 := by
      rw [hs1]
      show updStore s.store s.nextId _ s.nextId = _
      rw [updStore_apply, if_pos rfl]
    show (setExpirer s1 s.nextId d).waiters = s.waiters ∧
      ((setExpirer s1 s.nextId d).store s.nextId).spawned = 1 ∧
      ((setExpirer s1 s.nextId d).store s.nextId).chan = none ∧
      (setExpirer s1 s.nextId d).time = s.time
    rw [setExpirer_nonpos _ _ _ hd]
    have hEM := expireModel_timerT_eq s1 s.nextId s1.time 0 0 none 0 hst
    have hEM1 := congrArg Prod.fst hEM
    rw [hEM1]
    refine ⟨rfl, ?_, ?_, rfl⟩
    · show (updStore s1.store s.nextId _ s.nextId).spawned = _
      rw [updStore_apply, if_pos rfl]
    · show (updStore s1.store s.nextId _ s.nextId).chan = _
      rw [updStore_apply, if_pos rfl]
  · intro s i d hd hk
    have hst : s.store i = ExpData.mk (.timer false) (s.store i).exp (s.store i).tickD
        (s.store i).chan (s.store i).spawned := by
      rw [← hk]
    have hp1 : ∀ P : FC → Prop,
        P (setExpirer (stopExpirer s i).1 i d) → P (timerReset s i d).1 := by
      intro P h
      exact h
    by_cases hmem : i ∈ s.waiters
    · have hstop := stopExpirer_mem s i hmem
      show (setExpirer (stopExpirer s i).1 i d).waiters = _ ∧
        ((setExpirer (stopExpirer s i).1 i d).store i).chan = _ ∧
        (setExpirer (stopExpirer s i).1 i d).time = _ ∧
        (setExpirer (stopExpirer s i).1 i d).fired = _
      rw [hstop]
      set p1 : FC := { s with waiters := s.waiters.erase i } with hp1d
      have hst1 : p1.store i = ExpData.mk (.timer false) (s.store i).exp (s.store i).tickD
          (s.store i).chan (s.store i).spawned := hst
      rw [setExpirer_nonpos _ _ _ hd]
      have hEM := expireModel_timerF_eq p1 i p1.time _ _ _ _ hst1
      have hEM1 := congrArg Prod.fst hEM
      rw [hEM1]
      refine ⟨by rw [if_pos hmem], ?_, rfl, rfl⟩
      show (updStore p1.store i _ i).chan = _
      rw [updStore_apply, if_pos rfl]
    · have hstop := stopExpirer_not_mem s i hmem
      show (setExpirer (stopExpirer s i).1 i d).waiters = _ ∧
        ((setExpirer (stopExpirer s i).1 i d).store i).chan = _ ∧
        (setExpirer (stopExpirer s i).1 i d).time = _ ∧
        (setExpirer (stopExpirer s i).1 i d).fired = _
      rw [hstop]
      rw [setExpirer_nonpos _ _ _ hd]
      have hEM := expireModel_timerF_eq s i s.time _ _ _ _ hst
      have hEM1 := congrArg Prod.fst hEM
      rw [hEM1]
      refine ⟨by rw [if_neg hmem], ?_, rfl, rfl⟩
      show (updStore s.store i _ i).chan = _
      rw [updStore_apply, if_pos rfl]

/-- C6 witness: a fresh clock at time 3; `NewTimer 0` fires immediately:
queue stays empty and the timer\u2019s channel holds 3 at once. -/
theorem c6_witness :
    (0 : Int) ≤ 0 ∧
    ((newTimerOp (mkFC 3) 0 false).1.waiters = (mkFC 3).waiters ∧
      ((newTimerOp (mkFC 3) 0 false).1.store (mkFC 3).nextId).chan = some (mkFC 3).time ∧
      (newTimerOp (mkFC 3) 0 false).1.time = (mkFC 3).time ∧
      (newTimerOp (mkFC 3) 0 false).1.fired
        = (mkFC 3).fired ++ [FiredEv.mk (mkFC 3).nextId (mkFC 3).time (mkFC 3).time]) :=
  ⟨le_rfl, c6_nonpositive_fires_immediately.1 (mkFC 3) 0 le_rfl⟩

/-! ## C7 -/

/-- C7 counterexample: `exMix` (timer 0 at instant 30, ticker 1 at
instant 100) is sorted; after the queue-mutating operation
`fakeTicker.Reset(20)` on the registered ticker 1 the queue is no longer
sorted ascending by expiration instant (it reads 30, 20, 20). -/
theorem c7_counterexample :
    Sorted exMix ∧ ¬ Sorted (tickerReset exMix 1 20) := by
  decide

/-- C7 amended: the ascending-expiration invariant is preserved by
insertion of an expirer that is not already queued — which lands after
every entry with an equal or earlier instant and before every entry with
a strictly later one — by removal (stop), and by the Advance loop on a
duplicate-free queue.  (`fakeTicker.Reset` of a registered ticker
violates the not-already-queued precondition and breaks the invariant.) -/
theorem c7_queue_sorted :
    (∀ (s : FC) (i : Nat) (d : Int), i ∉ s.waiters → Sorted s →
      Sorted (setExpirer s i d)) ∧
    (∀ (s : FC) (i : Nat) (d : Int), 0 < d → i ∉ s.waiters → Sorted s →
      ∃ l1 l2, s.waiters = l1 ++ l2 ∧ (setExpirer s i d).waiters = l1 ++ i :: l2 ∧
        (∀ j ∈ l1, (s.store j).exp ≤ s.time + d) ∧
        (∀ j ∈ l2, s.time + d < (s.store j).exp)) ∧
    (∀ (s : FC) (i : Nat), Sorted s → Sorted (stopExpirer s i).1) ∧
    (∀ (s s2 : FC) (d : Int), Sorted s → s.waiters.Nodup → Advance s d = some s2 →
      Sorted s2 ∧ s2.waiters.Nodup) := by
  refine ⟨?_, ?_, ?_, ?_⟩
  · intro s i d hnotin hsort
    rcases le_or_lt d 0 with hd | hd
    · rw [setExpirer_nonpos s i d hd]
      unfold Sorted
      rw [expireModel_fst_waiters]
      exact sortedQ_congr (fun j _ => expireModel_fst_store_exp s i s.time j) hsort
    · obtain ⟨l1, l2, h1, h2, h3, h4, h5⟩ := setExpirer_sorted_insert s i d hd hnotin hsort
      exact h5
  · intro s i d hd hnotin hsort
    obtain ⟨l1, l2, h1, h2, h3, h4, h5⟩ := setExpirer_sorted_insert s i d hd hnotin hsort
    exact ⟨l1, l2, h1, h2, h3, h4⟩
  · intro s i hsort
    by_cases h : i ∈ s.waiters
    · rw [stopExpirer_mem s i h]
      exact hsort.sublist (List.erase_sublist i s.waiters)
    · rw [stopExpirer_not_mem s i h]
      exact hsort
  · intro s s2 d hsort hnd hrun
    rw [Advance_eq] at hrun
    obtain ⟨s1, h1, h2⟩ := Option.map_eq_some'.mp hrun
    obtain ⟨suf, hfired, hevs, hlb, hpw, hcomp, hsort1, hnd1, hnid1, hsubw, hfin⟩ :=
      advanceLoop_spec (s.time + d) _ s s1 h1 hsort hnd
    subst h2
    exact ⟨hsort1, hnd1⟩

/-- C7 witness: inserting a fresh timer (id 3, duration 4) into the
sorted three-timer queue of `exTriple` splits it after the instants at or
before 4 and before those strictly after 4, staying sorted. -/
theorem c7_witness :
    (0 : Int) < 4 ∧ 3 ∉ exTriple.waiters ∧ Sorted exTriple ∧
    (∃ l1 l2, exTriple.waiters = l1 ++ l2 ∧
      (setExpirer exTriple 3 4).waiters = l1 ++ 3 :: l2 ∧
      (∀ j ∈ l1, (exTriple.store j).exp ≤ exTriple.time + 4) ∧
      (∀ j ∈ l2, exTriple.time + 4 < (exTriple.store j).exp)) :=
  ⟨by norm_num, by decide, by decide,
    c7_queue_sorted.2.1 exTriple 3 4 (by norm_num) (by decide) (by decide)⟩

/-! ## C8 -/

/-- C8: stopping a queued expirer removes it (returning true) and leaves
the store, clock and log untouched, and a removed (unqueued) expirer
never fires during any later Advance; stopping an expirer that is not
queued returns false with the state unchanged, and a timer Reset on an
inactive timer likewise reports false. -/
theorem c8_stop_semantics :
    (∀ (s : FC) (i : Nat), i ∈ s.waiters → s.waiters.Nodup →
      (stopExpirer s i).2 = true ∧ i ∉ (stopExpirer s i).1.waiters ∧
      (stopExpirer s i).1.store = s.store ∧ (stopExpirer s i).1.time = s.time ∧
      (stopExpirer s i).1.fired = s.fired) ∧
    (∀ (s s2 : FC) (i : Nat) (d : Int), i ∉ s.waiters → Sorted s → s.waiters.Nodup →
      Advance s d = some s2 →
      ∃ suf, s2.fired = s.fired ++ suf ∧ ∀ ev ∈ suf, ev.id ≠ i) ∧
    (∀ (s : FC) (i : Nat), i ∉ s.waiters → stopExpirer s i = (s, false)) ∧
    (∀ (s : FC) (i : Nat) (d : Int), i ∉ s.waiters → (timerReset s i d).2 = false) := by
  refine ⟨?_, ?_, stopExpirer_not_mem, ?_⟩
  · intro s i hmem hnd
    rw [stopExpirer_mem s i hmem]
    refine ⟨rfl, ?_, rfl, rfl, rfl⟩
    intro hin
    exact absurd ((hnd.mem_erase_iff.mp hin).1) (by simp)
  · intro s s2 i d hnotin hsort hnd hrun
    rw [Advance_eq] at hrun
    obtain ⟨s1, h1, h2⟩ := Option.map_eq_some'.mp hrun
    obtain ⟨suf, hfired, hevs, hlb, hpw, hcomp, hsort1, hnd1, hnid1, hsubw, hfin⟩ :=
      advanceLoop_spec (s.time + d) _ s s1 h1 hsort hnd
    subst h2
    refine ⟨suf, hfired, ?_⟩
    intro ev hev hevi
    exact hnotin (hevi ▸ (hevs ev hev).2)
  · intro s i d hnotin
    show (stopExpirer s i).2 = false
    rw [stopExpirer_not_mem s i hnotin]

/-- C8 witness: stopping the queued timer 0 of `exTriple` reports true
and removes it; afterwards advancing by 10 fires only the other two
timers, never the stopped one; stopping it again reports false with the
state unchanged. -/
theorem c8_witness :
    (0 ∈ exTriple.waiters ∧ exTriple.waiters.Nodup ∧
      ((stopExpirer exTriple 0).2 = true ∧ 0 ∉ (stopExpirer exTriple 0).1.waiters ∧
        (stopExpirer exTriple 0).1.store = exTriple.store ∧
        (stopExpirer exTriple 0).1.time = exTriple.time ∧
        (stopExpirer exTriple 0).1.fired = exTriple.fired)) ∧
    stopExpirer (mkFC 0) 5 = (mkFC 0, false) :=
  ⟨⟨by decide, by decide,
    c8_stop_semantics.1 exTriple 0 (by decide) (by decide)⟩,
    c8_stop_semantics.2.2.1 (mkFC 0) 5 (by decide)⟩

/-! ## C9 -/

/-- C9: starting from a canonical single-ticker state of period `p`,
advancing by exactly `p` fires the ticker once and reschedules it at the
previously scheduled instant plus `p` (not at delivery time); iterating k
advance-then-drain cycles yields exactly `k` firings and moves the clock
by `k * p`. -/
theorem c9_ticker_periodicity (s : FC) (i : Nat) (p : Int) (c : Nat)
    (hp : 0 < p) (hP : tickerP s i p c) :
    (∃ s2, Advance s p = some s2 ∧
      (s2.store i).exp = (s.store i).exp + p ∧
      s2.fired = s.fired ++ [FiredEv.mk i (s.time + p) (s.time + p)]) ∧
    (∀ k, tickerP ((tickCycle i p)^[k] s) i p (c + k) ∧
      ((tickCycle i p)^[k] s).time = s.time + k * p) := by
  constructor
  · obtain ⟨s2, hadv, htm, hwait, hstore, hfired, hnid, hPc, htimec⟩ :=
      tick_cycle s i p c hp hP
    refine ⟨s2, hadv, ?_, hfired⟩
    rw [hstore, hP.2.1]
  · have main : ∀ (k : Nat) (t : FC) (ct : Nat), tickerP t i p ct →
        tickerP ((tickCycle i p)^[k] t) i p (ct + k) ∧
        ((tickCycle i p)^[k] t).time = t.time + k * p := by
      intro k
      induction k with
      | zero =>
        intro t ct h
        refine ⟨by simpa using h, by simp⟩
      | succ k ih =>
        intro t ct h
        obtain ⟨s2, hadv, htm, hwait, hstore, hfired, hnid, hPc, htimec⟩ :=
          tick_cycle t i p ct hp h
        rw [Function.iterate_succ_apply]
        obtain ⟨h1, h2⟩ := ih (tickCycle i p t) (ct + 1) hPc
        refine ⟨by rw [show ct + (k + 1) = ct + 1 + k by omega]; exact h1, ?_⟩
        rw [h2, htimec]
        push_cast
        ring
    intro k
    exact main k s c hP

/-- C9 witness: the period-5 ticker of `exTick5`, driven for any number
of cycles. -/
theorem c9_witness :
    (0 : Int) < 5 ∧ tickerP exTick5 0 5 0 ∧
    ((∃ s2, Advance exTick5 5 = some s2 ∧
      (s2.store 0).exp = (exTick5.store 0).exp + 5 ∧
      s2.fired = exTick5.fired
        ++ [FiredEv.mk 0 (exTick5.time + 5) (exTick5.time + 5)]) ∧
    (∀ k, tickerP ((tickCycle 0 5)^[k] exTick5) 0 5 (0 + k) ∧
      ((tickCycle 0 5)^[k] exTick5).time = exTick5.time + k * 5)) :=
  ⟨by norm_num, by unfold tickerP; decide,
    c9_ticker_periodicity exTick5 0 5 0 (by norm_num) (by unfold tickerP; decide)⟩

/-! ## C10 -/

/-- C10 counterexample: `exBroken` is reached from a fresh clock by
public operations only (NewTimer 30, NewTicker 100, ticker Reset 20,
Advance 25, Stop of the timer); in it the queued ticker 1 has expiration
20, strictly before the current time 25, and a subsequent `Advance 0`
fires an expirer and mutates the queue entry — the claimed between-calls
invariant and the Advance(0)-no-op consequence both fail on the code. -/
theorem c10_counterexample :
    1 ∈ exBroken.waiters ∧
    (exBroken.store 1).exp < exBroken.time ∧
    ((Advance exBroken 0).getD exBroken).fired.length = exBroken.fired.length + 1 ∧
    ((Advance exBroken 0).getD exBroken).store 1 ≠ exBroken.store 1 := by
  decide

/-- C10 amended: the engine invariant `Inv` — queue sorted, no duplicate
entries, ids below the allocator, every queued expiration strictly after
the current time — holds for a fresh clock and is preserved by NewTimer /
AfterFunc, NewTicker, timer Reset, stop, blocker registration and
Advance (every public operation except `fakeTicker.Reset` of a registered
ticker); in every Inv state all queued expirations are strictly in the
future and `Advance 0` fires nothing, returning the state unchanged. -/
theorem c10_engine_invariant :
    (∀ t : Int, Inv (mkFC t)) ∧
    (∀ (s : FC) (d : Int) (af : Bool), Inv s → Inv (newTimerOp s d af).1) ∧
    (∀ (s s2 : FC) (d : Int) (i : Nat), Inv s → newTickerOp s d = some (s2, i) →
      Inv s2) ∧
    (∀ (s : FC) (i : Nat) (d : Int), i < s.nextId → Inv s → Inv (timerReset s i d).1) ∧
    (∀ (s : FC) (i : Nat), Inv s → Inv (stopOp s i).1) ∧
    (∀ (s : FC) (n : Int), Inv s → Inv (newBlocker s n).1) ∧
    (∀ (s s2 : FC) (d : Int), Inv s → Advance s d = some s2 → Inv s2) ∧
    (∀ s : FC, Inv s → ∀ j ∈ s.waiters, s.time < (s.store j).exp) ∧
    (∀ s : FC, Inv s → Advance s 0 = some s) := by
  refine ⟨Inv_mkFC, fun s d af hinv => newTimerOp_Inv s d af hinv,
    fun s s2 d i hinv h => newTickerOp_Inv s d s2 i hinv h,
    fun s i d hid hinv => timerReset_Inv s i d hid hinv,
    fun s i hinv => stopExpirer_Inv s i hinv,
    fun s n hinv => newBlocker_Inv s n hinv,
    fun s s2 d hinv h => Advance_Inv s d s2 h hinv,
    fun s hinv => hinv.2.2.2, ?_⟩
  intro s hinv
  have hloop : advanceLoop (s.time + 0) (advMeasure (s.time + 0) s) s = some s := by
    by_cases hnil : s.waiters = []
    · exact advanceLoop_eq_nil _ _ s hnil
    · obtain ⟨w, rest, hw⟩ := List.exists_cons_of_ne_nil hnil
      refine advanceLoop_eq_stop _ _ s w rest hw ?_
      have h := hinv.2.2.2 w (by rw [hw]; exact List.mem_cons_self w rest)
      omega
  rw [Advance_eq, hloop]
  show some { s with time := s.time + 0 } = some s
  rw [Int.add_zero]

/-- C10 witness: the three-timer state `exTriple` satisfies the engine
invariant, and advancing it by zero is the identity. -/
theorem c10_witness :
    Inv exTriple ∧ Advance exTriple 0 = some exTriple :=
  ⟨by decide, c10_engine_invariant.2.2.2.2.2.2.2.2 exTriple (by decide)⟩

end Clockwork
